import Mathlib

/-!
Verification of the `lsm` key-value store (Rust) against its specification.

The Rust sources are shallowly embedded: byte buffers (`bytes::Bytes`,
`Vec<u8>`, files) become `List Nat` with every element below 256 where it
matters, machine integers become `Nat` with explicit `% 2^w` at the points
where the source performs an `as` cast or a fixed-width write, fallible
functions return `Option`/`Except`, and the stateful database becomes an
explicit state type with one function per operation.
-/

namespace LSM

/-! ## Little-endian byte encodings (src/key.rs, src/value.rs, src/framed.rs)

The source writes integers with `put_u32_le` / `put_u64_le` and reads them
with `try_get_u32_le` / `try_get_u64_le`.  `leBytes k n` is the k-byte
little-endian encoding of `n` (truncating, as the `as u32` casts do), and
`leVal` decodes a little-endian byte list. -/

def leBytes : Nat → Nat → List Nat
  | 0, _ => []
  | k + 1, n => n % 256 :: leBytes k (n / 256)

def le16 (n : Nat) : List Nat := leBytes 2 n

def le32 (n : Nat) : List Nat := leBytes 4 n

def le64 (n : Nat) : List Nat := leBytes 8 n

def leVal (bs : List Nat) : Nat := bs.foldr (fun b acc => b + 256 * acc) 0

/-! ## Internal keys (src/key.rs)

`SeqNo` is a `u64`; `Key` is a user key (a `bytes::Bytes`) paired with a
`SeqNo`.  Sequence numbers are modelled as plain `Nat` with a
well-formedness bound of `2^64` where encoding matters. -/

structure Key where
  userKey : List Nat
  seqno : Nat
deriving DecidableEq, Repr

/-- Encoded length of a key: `4 + self.0.len() + 8` (src/key.rs `encoded_len`). -/
def Key.encodedLen (k : Key) : Nat := 4 + k.userKey.length + 8

/-- `Key::encode_into`: `u32 le key_len | key_bytes | u64 le seqno`.
The `key_len` is the Rust `len as u32` cast, which `leBytes` truncates
exactly as the cast does. -/
def Key.encode (k : Key) : List Nat := le32 k.userKey.length ++ k.userKey ++ le64 k.seqno

inductive DecodeError where
  | unexpectedEnd
  | invalid
deriving DecidableEq, Repr

/-- `Key::decode_from`: reads the `u32` length, checks
`buf.remaining() < key_len + 8`, then takes the user key and the `u64`
seqno, returning the decoded key and the unconsumed rest of the buffer. -/
def Key.decode (buf : List Nat) : Except DecodeError (Key × List Nat) :=
  if buf.length < 4 then .error .unexpectedEnd
  else
    let keyLen := leVal (buf.take 4)
    let rest := buf.drop 4
    if rest.length < keyLen + 8 then .error .invalid
    else
      let userKey := rest.take keyLen
      let rest2 := rest.drop keyLen
      .ok (⟨userKey, leVal (rest2.take 8)⟩, rest2.drop 8)

/-- Lexicographic comparison of byte strings, as Rust's `Ord for [u8]`
(element-wise; the first difference decides; otherwise the shorter slice
is smaller). -/
def bytesCmp : List Nat → List Nat → Ordering
  | [], [] => .eq
  | [], _ :: _ => .lt
  | _ :: _, [] => .gt
  | a :: as, b :: bs =>
    match compare a b with
    | .eq => bytesCmp as bs
    | o => o

/-- `impl PartialOrd for Key` (src/key.rs): compare user keys; on equality
compare seqnos and invert the result. -/
def keyCmp (k1 k2 : Key) : Ordering :=
  match bytesCmp k1.userKey k2.userKey with
  | .eq =>
    match compare k1.seqno k2.seqno with
    | .lt => .gt
    | .gt => .lt
    | .eq => .eq
  | o => o

def keyLt (k1 k2 : Key) : Prop := keyCmp k1 k2 = .lt

instance : DecidablePred fun p : Key × Key => keyLt p.1 p.2 := fun _ => by
  unfold keyLt; infer_instance

/-! ## Values (src/value.rs) -/

inductive Value where
  | data (bytes : List Nat)
  | tombstone
deriving DecidableEq, Repr

/-- `Value::value_type as u8`: `Data = 0`, `Tombstone = 1`. -/
def Value.tag : Value → Nat
  | .data _ => 0
  | .tombstone => 1

/-- `Value::encode_into`: `u8 tag | (if Data) u32 le len | bytes`. -/
def Value.encode : Value → List Nat
  | .data d => 0 :: (le32 d.length ++ d)
  | .tombstone => [1]

/-- `Value::decode_from`: reads the tag byte, rejects tags other than 0/1,
and for `Data` reads the `u32` length, checks the remaining length, and
takes the payload. -/
def Value.decode (buf : List Nat) : Except DecodeError (Value × List Nat) :=
  match buf with
  | [] => .error .unexpectedEnd
  | t :: rest =>
    if t = 0 then
      if rest.length < 4 then .error .unexpectedEnd
      else
        let len := leVal (rest.take 4)
        let rest2 := rest.drop 4
        if rest2.length < len then .error .invalid
        else .ok (.data (rest2.take len), rest2.drop len)
    else if t = 1 then .ok (.tombstone, rest)
    else .error .invalid

/-- Payload length of a value: a `Tombstone` carries no payload. -/
def Value.payloadLen : Value → Nat
  | .data d => d.length
  | .tombstone => 0

/-- Well-formed key: the user-key length fits the `u32` length prefix and
the seqno fits a `u64`; each byte is a byte. -/
def wfKey (k : Key) : Prop :=
  k.userKey.length < 2 ^ 32 ∧ k.seqno < 2 ^ 64

/-- Well-formed value: a data payload fits the `u32` length prefix. -/
def wfValue (v : Value) : Prop :=
  match v with
  | .data d => d.length < 2 ^ 32
  | .tombstone => True

instance : DecidablePred wfKey := fun k => by unfold wfKey; infer_instance

instance : DecidablePred wfValue := fun v => by unfold wfValue; cases v <;> infer_instance

/-! ## Framed log codec (src/framed.rs)

A frame is a little-endian `u32` length followed by that many payload
bytes.  `read_framed` maps every `read_exact` failure — EOF in the length
prefix as well as EOF inside the payload — to
`postcard::Error::DeserializeUnexpectedEnd`, and also returns that error
when the length prefix is zero.  `read_all_framed` loops, treating
`DeserializeUnexpectedEnd` as end of stream and propagating every other
error.  The payload deserializer (`postcard::from_bytes`) is opaque to the
codec, so it is a parameter `dec` here. -/

inductive PError where
  | unexpectedEnd
  | deserializeFail
deriving DecidableEq, Repr

/-- `write_framed`: serialize, check the length fits a `u32`
(`try_into`), then write `u32 le len | payload`.  The serializer is a
parameter; this function takes the already-serialized payload. -/
def writeFramed (payload : List Nat) : Except PError (List Nat) :=
  if payload.length < 2 ^ 32 then .ok (le32 payload.length ++ payload)
  else .error .deserializeFail

/-- The bytes of one well-formed frame (the success case of `write_framed`). -/
def frameBytes (payload : List Nat) : List Nat := le32 payload.length ++ payload

/-- `read_framed` with payload decoder `dec`. -/
def readFramed (dec : List Nat → Except PError α) (input : List Nat) :
    Except PError (α × List Nat) :=
  if input.length < 4 then .error .unexpectedEnd
  else
    let len := leVal (input.take 4)
    if len = 0 then .error .unexpectedEnd
    else
      let rest := input.drop 4
      if rest.length < len then .error .unexpectedEnd
      else
        match dec (rest.take len) with
        | .ok v => .ok (v, rest.drop len)
        | .error e => .error e

/-- Loop body of `read_all_framed`, with fuel bounding the number of
iterations.  Each successful `read_framed` consumes at least five bytes,
so `input.length + 1` fuel always suffices (see `readAllFramedAux_fuel`). -/
def readAllFramedAux (dec : List Nat → Except PError α) :
    Nat → List Nat → Except PError (List α)
  | 0, _ => .error .deserializeFail
  | fuel + 1, input =>
    match readFramed dec input with
    | .error .unexpectedEnd => .ok []
    | .error e => .error e
    | .ok (v, rest) =>
      match readAllFramedAux dec fuel rest with
      | .ok vs => .ok (v :: vs)
      | .error e => .error e

/-- `read_all_framed`: read frames until `DeserializeUnexpectedEnd`. -/
def readAllFramed (dec : List Nat → Except PError α) (input : List Nat) :
    Except PError (List α) :=
  readAllFramedAux dec (input.length + 1) input

/-- Concatenation of the frames of a list of payloads. -/
def framesOf (payloads : List (List Nat)) : List Nat :=
  (payloads.map frameBytes).flatten

/-! ## MemTable (src/memtable.rs)

The Rust `MemTable` is a `BTreeMap<Key, Value>` plus a byte-size estimate.
The map is embedded as an association list with distinct keys; the order
of entries in the list is irrelevant because `getLatest` is defined as the
entry with the maximal seqno among a user key's entries, which is exactly
the first entry of the `BTreeMap` range scan under the seqno-inverted key
order. -/

structure Mem where
  data : List (Key × Value)
  size : Nat
deriving Repr

def mtNew : Mem := ⟨[], 0⟩

/-- `BTreeMap::get`-style lookup on the association list (first match). -/
def assocFind (k : Key) : List (Key × Value) → Option Value
  | [] => none
  | (k', v') :: t => if k' = k then some v' else assocFind k t

/-- Replace the (first) binding of `k`; the Rust map has at most one. -/
def assocReplace (k : Key) (v : Value) : List (Key × Value) → List (Key × Value)
  | [] => []
  | (k', v') :: t => if k' = k then (k, v) :: t else (k', v') :: assocReplace k v t

/-- `MemTable::put` (Active): insert `Data(v)`; adjust `size` by the payload
delta when the internal key was present (a prior tombstone counts as zero
payload), or by payload plus user-key length when it is brand new.
The `usize` subtraction `size -= l_old - l_new` is `Nat` subtraction; the
size invariant (claim C7) shows it never underflows. -/
def mtPut (m : Mem) (k : Key) (v : List Nat) : Mem :=
  let lNew := v.length
  let lKey := k.userKey.length
  match assocFind k m.data with
  | some (.data old) =>
    { data := assocReplace k (.data v) m.data
      size := if old.length > lNew then m.size - (old.length - lNew)
              else m.size + (lNew - old.length) }
  | some .tombstone =>
    { data := assocReplace k (.data v) m.data, size := m.size + lNew }
  | none =>
    { data := (k, .data v) :: m.data, size := m.size + lNew + lKey }

/-- `MemTable::delete` (Active): insert a tombstone; subtract a replaced
data payload; add the user-key length when the internal key is brand new. -/
def mtDelete (m : Mem) (k : Key) : Mem :=
  let lKey := k.userKey.length
  match assocFind k m.data with
  | some (.data old) =>
    { data := assocReplace k .tombstone m.data, size := m.size - old.length }
  | some .tombstone =>
    { data := assocReplace k .tombstone m.data, size := m.size }
  | none =>
    { data := (k, .tombstone) :: m.data, size := m.size + lKey }

/-- Specified size of a memtable: the sum over entries of
`user_key_len + value_payload_len` (a tombstone contributes zero payload). -/
def sizeSpec (l : List (Key × Value)) : Nat :=
  (l.map fun e => e.1.userKey.length + e.2.payloadLen).sum

/-- The mutations an Active memtable accepts. -/
inductive MtOp where
  | put (k : Key) (v : List Nat)
  | del (k : Key)
deriving DecidableEq, Repr

def applyMtOp (m : Mem) : MtOp → Mem
  | .put k v => mtPut m k v
  | .del k => mtDelete m k

/-- The memtable reached from `MemTable::new()` by a sequence of
`put`/`delete` calls. -/
def applyMtOps (ops : List MtOp) : Mem :=
  ops.foldl applyMtOp mtNew

/-- The entry a `BTreeMap` range scan over
`Key::min_seqno(u) ..= Key::max_seqno(u)` yields first: among the entries
whose user key is `u`, the one with the greatest seqno (the seqno
component of the key order is inverted, so it sorts first). -/
def getLatestEntry (u : List Nat) : List (Key × Value) → Option (Key × Value)
  | [] => none
  | (k, v) :: t =>
    let r := getLatestEntry u t
    if k.userKey = u then
      match r with
      | none => some (k, v)
      | some (k', v') => if k.seqno < k'.seqno then some (k', v') else some (k, v)
    else r

/-- `MemTable::get_latest`: value of the first entry of the user-key range. -/
def getLatest (m : Mem) (u : List Nat) : Option Value :=
  (getLatestEntry u m.data).map Prod.snd

/-! ## Database facade (src/db.rs)

The `Database` owns the active memtable, the frozen queue (`FrozenTables`:
an ordered list, oldest first, plus a flushed-prefix counter), and the
seqno counter.  `FrozenTables::iter` skips the flushed prefix;
`Database::get` searches the active table and then the unflushed frozen
tables newest first.  The WAL and the on-disk side do not affect `get`,
`put`, or `delete` results and are modelled separately.

Freezing is performed by `maybe_rotate` when the size/WAL thresholds are
crossed; since those thresholds depend on byte sizes only, a freeze is
modelled as its own step so that statements can quantify over every
possible schedule.  `flushMark` is the flusher marking the front frozen
table flushed (`FrozenTables::mark_flushed` after a successful
`flush_memtable`), and `compact` is `FrozenTables::compact`, which drops
the flushed prefix and resets the counter. -/

structure DbState where
  table : Mem
  imm : List Mem
  flushed : Nat
  seqno : Nat
deriving Repr

def dbInit : DbState := ⟨mtNew, [], 0, 0⟩

/-- `Database::get`, searching a list of memtables in order: first hit
wins, a tombstone hit returns `None`. -/
def searchTables (u : List Nat) : List Mem → Option (List Nat)
  | [] => none
  | m :: t =>
    match getLatest m u with
    | some (.data d) => some d
    | some .tombstone => none
    | none => searchTables u t

/-- `Database::get`: active table first, then the unflushed frozen tables
(`iter().skip(flushed)`) newest first (`.rev()`); SSTables are a TODO in
the source and are not consulted. -/
def dbGet (st : DbState) (u : List Nat) : Option (List Nat) :=
  searchTables u (st.table :: (st.imm.drop st.flushed).reverse)

/-- `Database::put`: assign `seqno.next()` (returns the current value and
increments), insert into the active memtable.  (The WAL append precedes
this; it does not affect the in-memory state.) -/
def dbPut (st : DbState) (u v : List Nat) : DbState :=
  { st with table := mtPut st.table ⟨u, st.seqno⟩ v, seqno := st.seqno + 1 }

/-- `Database::delete`: as `put`, with a tombstone insert. -/
def dbDelete (st : DbState) (u : List Nat) : DbState :=
  { st with table := mtDelete st.table ⟨u, st.seqno⟩, seqno := st.seqno + 1 }

/-- `maybe_rotate`'s action when it fires: `freeze` the active table
(leaving it empty) and push the frozen table to the back of the queue. -/
def dbFreeze (st : DbState) : DbState :=
  { st with table := mtNew, imm := st.imm ++ [st.table] }

/-- `FrozenTables::mark_flushed`: the flusher has durably flushed the
front unflushed frozen table. -/
def dbMarkFlushed (st : DbState) : DbState :=
  { st with flushed := st.flushed + 1 }

/-- `FrozenTables::compact`: drop the flushed prefix, reset the counter. -/
def dbCompact (st : DbState) : DbState :=
  { st with imm := st.imm.drop st.flushed, flushed := 0 }

inductive DbOp where
  | put (u v : List Nat)
  | del (u : List Nat)
  | freeze
  | flushMark
  | compact
deriving DecidableEq, Repr

def applyDbOp (st : DbState) : DbOp → DbState
  | .put u v => dbPut st u v
  | .del u => dbDelete st u
  | .freeze => dbFreeze st
  | .flushMark => dbMarkFlushed st
  | .compact => dbCompact st

def applyDbOps (st : DbState) (ops : List DbOp) : DbState :=
  ops.foldl applyDbOp st

/-- An operation that neither mutates user key `K` nor lets the flusher
retire in-memory data: a put/delete on another key, or a memtable freeze. -/
def avoidsKey (K : List Nat) : DbOp → Prop
  | .put u _ => u ≠ K
  | .del u => u ≠ K
  | .freeze => True
  | .flushMark => False
  | .compact => False

instance (K : List Nat) : DecidablePred (avoidsKey K) := fun op => by
  unfold avoidsKey; cases op <;> infer_instance

/-- Every internal key stored anywhere carries a seqno below the
database's next-to-assign seqno (true of every reachable state; the
database assigns strictly increasing seqnos). -/
def seqnoBound (st : DbState) : Prop :=
  (∀ e ∈ st.table.data, e.1.seqno < st.seqno) ∧
  ∀ m ∈ st.imm, ∀ e ∈ m.data, e.1.seqno < st.seqno

/-- The flushed-prefix counter never exceeds the queue length (the flusher
only marks tables it popped from the queue). -/
def flushedBound (st : DbState) : Prop := st.flushed ≤ st.imm.length

instance : DecidablePred flushedBound := fun st => by
  unfold flushedBound; infer_instance

/-! ## Manifest (src/sstable/manifest.rs, src/sstable/manager.rs)

`Manifest` holds `next_file_number`, `last_committed_sequence_number`, and
a `BTreeMap<Level, LevelMeta>`; each `LevelMeta` holds a
`BTreeMap<FileNo, FileMeta>`.  The maps are embedded as association lists
(ordering is irrelevant to the claims).  Two record-application functions
exist in the source: the in-memory update performed by
`SSTableManager::append_record`, and the replay arm of
`Manifest::load_from_file`. -/

structure FileMeta where
  fileNumber : Nat
  fileSize : Nat
  smallestKey : List Nat
  largestKey : List Nat
deriving DecidableEq, Repr

structure LevelMeta where
  level : Nat
  files : List (Nat × FileMeta)
deriving DecidableEq, Repr

structure Manifest where
  nextFileNumber : Nat
  lastCommittedSequenceNumber : Nat
  levels : List (Nat × LevelMeta)
deriving DecidableEq, Repr

inductive ManifestRecord where
  | snapshot (m : Manifest)
  | createFile (level : Nat) (fileMeta : FileMeta)
  | deleteFile (level : Nat) (fileNumber : Nat)
  | setLastSeqNo (seqno : Nat)
  | allocFileNumber (fileNo : Nat)
deriving DecidableEq, Repr

/-- `Manifest::new`: level 0 is always present, counters start at 0. -/
def manifestNew : Manifest :=
  ⟨0, 0, [(0, ⟨0, []⟩)]⟩

/-- `BTreeMap` insert on an association list: replace or append. -/
def mapInsert (k : Nat) (v : α) : List (Nat × α) → List (Nat × α)
  | [] => [(k, v)]
  | (k', v') :: t => if k' = k then (k, v) :: t else (k', v') :: mapInsert k v t

def mapRemove (k : Nat) : List (Nat × α) → List (Nat × α)
  | [] => []
  | (k', v') :: t => if k' = k then t else (k', v') :: mapRemove k t

def mapFind (k : Nat) : List (Nat × α) → Option α
  | [] => none
  | (k', v') :: t => if k' = k then some v' else mapFind k t

/-- `levels.entry(level).or_insert_with(empty LevelMeta)` followed by an
operation on that level's `files` map. -/
def levelModify (level : Nat) (f : List (Nat × FileMeta) → List (Nat × FileMeta))
    (levels : List (Nat × LevelMeta)) : List (Nat × LevelMeta) :=
  match mapFind level levels with
  | some lm => mapInsert level ⟨lm.level, f lm.files⟩ levels
  | none => mapInsert level ⟨level, f []⟩ levels

/-- The in-memory manifest update of `SSTableManager::append_record`:
`SetLastSeqNo` takes the max with the current value; `AllocFileNumber`
raises `next_file_number` to `max(next_file_number, file_no + 1)`. -/
def applyManagerRecord (m : Manifest) : ManifestRecord → Manifest
  | .snapshot m' => m'
  | .createFile level fileMeta =>
    { m with levels := levelModify level (mapInsert fileMeta.fileNumber fileMeta) m.levels }
  | .deleteFile level fileNumber =>
    { m with levels := levelModify level (mapRemove fileNumber) m.levels }
  | .setLastSeqNo s =>
    { m with lastCommittedSequenceNumber := max s m.lastCommittedSequenceNumber }
  | .allocFileNumber fileNo =>
    { m with nextFileNumber := max m.nextFileNumber (fileNo + 1) }

/-- The replay arm of `Manifest::load_from_file`: `SetLastSeqNo` assigns
the recorded value directly; `AllocFileNumber` raises `next_file_number`
to `max(file_no, next_file_number)` — without the `+ 1`. -/
def applyLoadRecord (m : Manifest) : ManifestRecord → Manifest
  | .snapshot m' => m'
  | .createFile level fileMeta =>
    { m with levels := levelModify level (mapInsert fileMeta.fileNumber fileMeta) m.levels }
  | .deleteFile level fileNumber =>
    { m with levels := levelModify level (mapRemove fileNumber) m.levels }
  | .setLastSeqNo s =>
    { m with lastCommittedSequenceNumber := s }
  | .allocFileNumber fileNo =>
    { m with nextFileNumber := max fileNo m.nextFileNumber }

/-- `Manifest::load_from_file`: start from the fresh skeleton (level 0
present, counters 0) and fold the decoded records. -/
def loadFromRecords (records : List ManifestRecord) : Manifest :=
  records.foldl applyLoadRecord manifestNew

/-- `SSTableManager::append_record` over a record sequence (in-memory
manifest evolution of one process run). -/
def applyManagerRecords (m : Manifest) (records : List ManifestRecord) : Manifest :=
  records.foldl applyManagerRecord m

/-- Every `AllocFileNumber` file number occurring in a record sequence. -/
def allocatedNumbers (records : List ManifestRecord) : List Nat :=
  records.filterMap fun r =>
    match r with
    | .allocFileNumber fileNo => some fileNo
    | _ => none

/-! ## WAL byte format (src/wal.rs)

`Wal::append` writes
`bincode::serde::encode_into_std_write(&record, file, BINCODE_CONFIG)`
directly to the file — bincode standard configuration with little-endian
byte order and variable-length integer encoding — and then fsyncs.  There
is no framing layer: the stream is the concatenation of the bincode
encodings.

Bincode's varint encoding of an unsigned integer: a value below 251 is a
single byte; up to `u16` it is `251` followed by two little-endian bytes;
up to `u32` it is `252` followed by four; up to `u64` it is `253` followed
by eight.  An enum variant index is encoded as a `u32` varint;
`bytes::Bytes` serializes as a varint length followed by the raw bytes;
`SeqNo(u64)` as the inner `u64` varint. -/

def varint (n : Nat) : List Nat :=
  if n < 251 then [n]
  else if n < 2 ^ 16 then 251 :: le16 n
  else if n < 2 ^ 32 then 252 :: le32 n
  else 253 :: le64 n

def varintDecode : List Nat → Except DecodeError (Nat × List Nat)
  | [] => .error .unexpectedEnd
  | b :: rest =>
    if b < 251 then .ok (b, rest)
    else if b = 251 then
      if rest.length < 2 then .error .unexpectedEnd
      else .ok (leVal (rest.take 2), rest.drop 2)
    else if b = 252 then
      if rest.length < 4 then .error .unexpectedEnd
      else .ok (leVal (rest.take 4), rest.drop 4)
    else if b = 253 then
      if rest.length < 8 then .error .unexpectedEnd
      else .ok (leVal (rest.take 8), rest.drop 8)
    else .error .invalid

inductive WalRecord where
  | put (key : Key) (val : List Nat)
  | del (key : Key)
deriving DecidableEq, Repr

def WalRecord.key : WalRecord → Key
  | .put k _ => k
  | .del k => k

/-- Bincode encoding of a `Key` (`struct Key(bytes::Bytes, SeqNo)`):
varint length, raw user-key bytes, varint seqno. -/
def keyBincode (k : Key) : List Nat :=
  varint k.userKey.length ++ k.userKey ++ varint k.seqno

/-- Bincode encoding of a `WalRecord`: the variant index as a `u32`
varint, then the fields in order. -/
def walEncodeRecord : WalRecord → List Nat
  | .put k v => varint 0 ++ keyBincode k ++ (varint v.length ++ v)
  | .del k => varint 1 ++ keyBincode k

/-- The byte stream `Wal::append` produces for a record sequence: each
append writes the record's bincode encoding at the end of the file. -/
def walAppend (stream : List Nat) (r : WalRecord) : List Nat :=
  stream ++ walEncodeRecord r

def walStream (records : List WalRecord) : List Nat :=
  records.foldl walAppend []

def keyBincodeDecode (buf : List Nat) : Except DecodeError (Key × List Nat) := do
  let (len, r1) ← varintDecode buf
  if r1.length < len then .error .unexpectedEnd
  else
    let (seqno, r2) ← varintDecode (r1.drop len)
    .ok (⟨r1.take len, seqno⟩, r2)

/-- Bincode decoding of one `WalRecord` from the stream. -/
def walDecodeRecord (buf : List Nat) : Except DecodeError (WalRecord × List Nat) := do
  let (variant, r0) ← varintDecode buf
  if variant = 0 then
    let (k, r1) ← keyBincodeDecode r0
    let (len, r2) ← varintDecode r1
    if r2.length < len then .error .unexpectedEnd
    else .ok (.put k (r2.take len), r2.drop len)
  else if variant = 1 then
    let (k, r1) ← keyBincodeDecode r0
    .ok (.del k, r1)
  else .error .invalid

/-- `Wal::replay` / `read_stats` loop: decode records until an
unexpected-end error (EOF), which stops cleanly; any other decode error
panics (`none`). -/
def walDecodeAllAux : Nat → List Nat → Option (List WalRecord)
  | 0, _ => none
  | fuel + 1, input =>
    match walDecodeRecord input with
    | .error .unexpectedEnd => some []
    | .error .invalid => none
    | .ok (r, rest) =>
      match walDecodeAllAux fuel rest with
      | some rs => some (r :: rs)
      | none => none

def walDecodeAll (input : List Nat) : Option (List WalRecord) :=
  walDecodeAllAux (input.length + 1) input

/-- Well-formed WAL record: lengths and the seqno fit `u64` varints. -/
def wfWalRecord : WalRecord → Prop
  | .put k v => k.userKey.length < 2 ^ 64 ∧ k.seqno < 2 ^ 64 ∧ v.length < 2 ^ 64
  | .del k => k.userKey.length < 2 ^ 64 ∧ k.seqno < 2 ^ 64

instance : DecidablePred wfWalRecord := fun r => by
  unfold wfWalRecord; cases r <;> infer_instance

/-! ## SSTable format and flush (src/sstable/sstable.rs, src/sstable/manager.rs)

A data block is a packed sequence of `(internal_key, value)` encodings.
The index block is `u32 le block_count` followed, per block in file
order, by the block's last internal key (key encoding), `u64 le offset`,
`u32 le size`.  The footer is the 32 bytes
`u64 le index_offset | u64 le index_size | u64 le reserved |
u32 le reserved | u32 le magic`, `magic = 0xDEADBEEF`.

`flush_memtable_internal` iterates the frozen memtable in sorted order,
packs entries into the current block, closes a block once it reaches
`BLOCK_SIZE`, records `{last_key, offset, size}` (the offset is the file
position before the block is written; the size is `len as u32`), and when
the projected file size reaches the L0 budget finalizes the file (index,
footer, fsync) and starts a new one.  After the loop a partial final
block — possibly empty — is recorded and written, and the last file is
finalized. -/

def BLOCK_SIZE : Nat := 1024 * 16

def BASE_LEVEL_SIZE : Nat := 1024 * 1024 * 64

def SSTABLE_MAGIC : Nat := 0xDEADBEEF

/-- `size_of::<SSTableFooter>()`: `u64 + u64 + u64 + u32 + u32`, 32 bytes. -/
def FOOTER_SIZE : Nat := 32

structure BlockMeta where
  lastKey : Key
  offset : Nat
  size : Nat
deriving DecidableEq, Repr

/-- `index_block_size`: 4 bytes of count plus, per entry, the encoded key
length plus 8 (offset) plus 4 (size). -/
def indexBlockSize (entries : List BlockMeta) : Nat :=
  (entries.map fun e => e.lastKey.encodedLen + 8 + 4).sum + 4

structure SSTableFooter where
  indexOffset : Nat
  indexSize : Nat
  reserved1 : Nat
  reserved2 : Nat
  magic : Nat
deriving DecidableEq, Repr

/-- `SSTableFooter::encode_into`. -/
def SSTableFooter.encode (f : SSTableFooter) : List Nat :=
  le64 f.indexOffset ++ le64 f.indexSize ++ le64 f.reserved1 ++ le32 f.reserved2 ++ le32 f.magic

/-- The encoded index block: count, then one entry per block in order. -/
def indexBlockBytes (metas : List BlockMeta) : List Nat :=
  le32 metas.length ++
    (metas.map fun m => m.lastKey.encode ++ le64 m.offset ++ le32 m.size).flatten

/-- `finalize_sstable`, restricted to the bytes it appends to the file:
the index block is written at the current position (`index_offset`),
followed by the footer. -/
def finalizeFile (fileData : List Nat) (metas : List BlockMeta) : List Nat :=
  let indexBuf := indexBlockBytes metas
  fileData ++ indexBuf ++
    SSTableFooter.encode ⟨fileData.length, indexBuf.length, 0, 0, SSTABLE_MAGIC⟩

/-- Loop state of `flush_memtable_internal`.  `fileData` is the bytes
written to the current SSTable file so far (`stream_position` equals its
length), `files` the finalized files.  `sstableSize` mirrors the source's
running counter. -/
structure FlushAcc where
  files : List (List Nat)
  fileData : List Nat
  blockMeta : List BlockMeta
  currentBlock : List Nat
  sstableSize : Nat
  firstKey : Option Key
  lastKey : Option Key
deriving Repr

def flushInit : FlushAcc := ⟨[], [], [], [], 0, none, none⟩

/-- One iteration of the entry loop: extend the current block; when it
reaches `BLOCK_SIZE`, record its metadata (`offset` = position before the
write, `size` = `len as u32`) and write it; when the projected file size
reaches the L0 budget, finalize the file and reset for the next one. -/
def flushEntry (acc : FlushAcc) (e : Key × Value) : FlushAcc :=
  let firstKey := some (acc.firstKey.getD e.1)
  let lastKey := some e.1
  let currentBlock := acc.currentBlock ++ e.1.encode ++ e.2.encode
  if BLOCK_SIZE ≤ currentBlock.length then
    let meta : BlockMeta := ⟨e.1, acc.fileData.length, currentBlock.length % 2 ^ 32⟩
    let blockMeta := acc.blockMeta ++ [meta]
    let fileData := acc.fileData ++ currentBlock
    let sstableSize := acc.sstableSize + currentBlock.length
    if BASE_LEVEL_SIZE ≤ sstableSize + indexBlockSize blockMeta + FOOTER_SIZE then
      { files := acc.files ++ [finalizeFile fileData blockMeta]
        fileData := []
        blockMeta := []
        currentBlock := []
        sstableSize := 0
        firstKey := none
        lastKey := none }
    else
      { acc with
        fileData := fileData
        blockMeta := blockMeta
        currentBlock := []
        sstableSize := sstableSize
        firstKey := firstKey
        lastKey := lastKey }
  else
    { acc with currentBlock := currentBlock, firstKey := firstKey, lastKey := lastKey }

/-- After the loop: if a partial file remains (`first_key` is set), record
and write the final (possibly empty) block and finalize the file.  In the
source `last_key` is `expect`ed to be set whenever `first_key` is; the
`none` branch is unreachable. -/
def flushFinish (acc : FlushAcc) : List (List Nat) :=
  match acc.firstKey, acc.lastKey with
  | some _, some lk =>
    let meta : BlockMeta := ⟨lk, acc.fileData.length, acc.currentBlock.length % 2 ^ 32⟩
    let blockMeta := acc.blockMeta ++ [meta]
    let fileData := acc.fileData ++ acc.currentBlock
    acc.files ++ [finalizeFile fileData blockMeta]
  | _, _ => acc.files

/-- The SSTable files produced by flushing a frozen memtable whose sorted
entry sequence is `entries`. -/
def flushFiles (entries : List (Key × Value)) : List (List Nat) :=
  flushFinish (entries.foldl flushEntry flushInit)

/-- Parse the index block: `count` entries of key, `u64` offset, `u32`
size. -/
def parseIndexEntries : Nat → List Nat → Option (List BlockMeta × List Nat)
  | 0, rest => some ([], rest)
  | n + 1, bs =>
    match Key.decode bs with
    | .ok (k, r1) =>
      if r1.length < 12 then none
      else
        let off := leVal (r1.take 8)
        let sz := leVal ((r1.drop 8).take 4)
        match parseIndexEntries n (r1.drop 12) with
        | some (ms, r) => some (⟨k, off, sz⟩ :: ms, r)
        | none => none
    | .error _ => none

/-- Parse an SSTable file: read the footer from the last 32 bytes,
validate the magic, then read `block_count` index entries at
`index_offset`. -/
def parseSSTable (file : List Nat) : Option (SSTableFooter × List BlockMeta) :=
  if file.length < FOOTER_SIZE then none
  else
    let fb := file.drop (file.length - FOOTER_SIZE)
    let footer : SSTableFooter :=
      ⟨leVal (fb.take 8), leVal ((fb.drop 8).take 8), leVal ((fb.drop 16).take 8),
        leVal ((fb.drop 24).take 4), leVal ((fb.drop 28).take 4)⟩
    if footer.magic ≠ SSTABLE_MAGIC then none
    else
      let idx := file.drop footer.indexOffset
      if idx.length < 4 then none
      else
        match parseIndexEntries (leVal (idx.take 4)) (idx.drop 4) with
        | some (metas, _) => some (footer, metas)
        | none => none

/-- The property claim C8 asserts of a file, with the exact strict bound
`offset + size < index_offset` it states. -/
def parsesWithStrictBounds (file : List Nat) : Bool :=
  match parseSSTable file with
  | some (footer, metas) =>
    footer.magic = SSTABLE_MAGIC ∧ metas.all fun m => m.offset + m.size < footer.indexOffset
  | none => false

/-- Encoded size of one memtable entry as written into a block. -/
def entryEncLen (e : Key × Value) : Nat :=
  e.1.encode.length + e.2.encode.length

/-- Total encoded size of a memtable's entries. -/
def totalEncLen (entries : List (Key × Value)) : Nat :=
  (entries.map entryEncLen).sum

/-- Well-formed index entry: the key fits its encoding, the offset fits
the `u64` field and the size the `u32` field. -/
def wfBlockMeta (m : BlockMeta) : Prop :=
  wfKey m.lastKey ∧ m.offset < 2 ^ 64 ∧ m.size < 2 ^ 32

/-- Well-formed memtable entry for the flush path: encodable key and
value, and the entry small enough that a data block holding it keeps its
size within the `u32` size field (`BLOCK_SIZE` slack because a block may
exceed the target by one entry). -/
def wfFlushEntry (e : Key × Value) : Prop :=
  wfKey e.1 ∧ wfValue e.2 ∧ entryEncLen e + BLOCK_SIZE ≤ 2 ^ 32

instance : DecidablePred wfFlushEntry := fun e => by
  unfold wfFlushEntry entryEncLen; infer_instance

/-- What claim C8 (amended) asserts of one SSTable file: it parses, the
footer carries the magic, and every index entry's block lies within the
data region `[0, index_offset)`, i.e. `offset + size ≤ index_offset`. -/
def goodSSTableFile (file : List Nat) : Prop :=
  ∃ footer metas, parseSSTable file = some (footer, metas) ∧
    footer.magic = SSTABLE_MAGIC ∧
    ∀ m ∈ metas, m.offset + m.size ≤ footer.indexOffset

/-- Invariant of the flush loop state between entries. -/
def flushInv (acc : FlushAcc) : Prop :=
  acc.currentBlock.length < BLOCK_SIZE ∧
  (∀ m ∈ acc.blockMeta,
    m.offset + m.size ≤ acc.fileData.length ∧ wfKey m.lastKey ∧ m.size < 2 ^ 32) ∧
  acc.blockMeta.length * BLOCK_SIZE ≤ acc.fileData.length ∧
  (∀ k, acc.lastKey = some k → wfKey k) ∧
  ∀ f ∈ acc.files, goodSSTableFile f

/-! ## Little-endian encoding lemmas -/

theorem leBytes_length (k n : Nat) : (leBytes k n).length = k := by
  induction k generalizing n with
  | zero => rfl
  | succ k ih => simp [leBytes, ih]

theorem le16_length (n : Nat) : (le16 n).length = 2 := leBytes_length 2 n

theorem le32_length (n : Nat) : (le32 n).length = 4 := leBytes_length 4 n

theorem le64_length (n : Nat) : (le64 n).length = 8 := leBytes_length 8 n

theorem leVal_leBytes (k n : Nat) : leVal (leBytes k n) = n % 256 ^ k := by
  induction k generalizing n with
  | zero => simp [leBytes, leVal, Nat.mod_one]
  | succ k ih =>
    have h : n % (256 * 256 ^ k) = n % 256 + 256 * (n / 256 % 256 ^ k) := Nat.mod_mul
    simp only [leBytes, leVal, List.foldr_cons]
    rw [show (leBytes k (n / 256)).foldr (fun b acc => b + 256 * acc) 0
        = leVal (leBytes k (n / 256)) from rfl, ih]
    rw [pow_succ, mul_comm (256 ^ k) 256, h]

theorem leVal_le32 (n : Nat) (h : n < 2 ^ 32) : leVal (le32 n) = n := by
  have : (256 : Nat) ^ 4 = 2 ^ 32 := by norm_num
  rw [le32, leVal_leBytes, this, Nat.mod_eq_of_lt h]

theorem leVal_le16 (n : Nat) (h : n < 2 ^ 16) : leVal (le16 n) = n := by
  have : (256 : Nat) ^ 2 = 2 ^ 16 := by norm_num
  rw [le16, leVal_leBytes, this, Nat.mod_eq_of_lt h]

theorem leVal_le64 (n : Nat) (h : n < 2 ^ 64) : leVal (le64 n) = n := by
  have : (256 : Nat) ^ 8 = 2 ^ 64 := by norm_num
  rw [le64, leVal_leBytes, this, Nat.mod_eq_of_lt h]

/-- Take an encoded prefix of known length off an appended buffer. -/
theorem take_pre (pre suf : List Nat) (n : Nat) (h : pre.length = n) :
    (pre ++ suf).take n = pre := List.take_left' h

theorem drop_pre (pre suf : List Nat) (n : Nat) (h : pre.length = n) :
    (pre ++ suf).drop n = suf := List.drop_left' h

/-! ## Key / Value encode-decode round trip -/

theorem key_decode_encode (k : Key) (rest : List Nat) (hk : wfKey k) :
    Key.decode (k.encode ++ rest) = .ok (k, rest) := by
  obtain ⟨hlen, hseq⟩ := hk
  have e1 : k.encode ++ rest
      = le32 k.userKey.length ++ (k.userKey ++ (le64 k.seqno ++ rest)) := by
    simp [Key.encode]
  have t4 : (le32 k.userKey.length ++ (k.userKey ++ (le64 k.seqno ++ rest))).take 4
      = le32 k.userKey.length := take_pre _ _ 4 (le32_length _)
  have d4 : (le32 k.userKey.length ++ (k.userKey ++ (le64 k.seqno ++ rest))).drop 4
      = k.userKey ++ (le64 k.seqno ++ rest) := drop_pre _ _ 4 (le32_length _)
  have tk : (k.userKey ++ (le64 k.seqno ++ rest)).take k.userKey.length = k.userKey :=
    take_pre _ _ _ rfl
  have dk : (k.userKey ++ (le64 k.seqno ++ rest)).drop k.userKey.length
      = le64 k.seqno ++ rest := drop_pre _ _ _ rfl
  have t8 : (le64 k.seqno ++ rest).take 8 = le64 k.seqno := take_pre _ _ 8 (le64_length _)
  have d8 : (le64 k.seqno ++ rest).drop 8 = rest := drop_pre _ _ 8 (le64_length _)
  have hl1 : ¬ (le32 k.userKey.length ++ (k.userKey ++ (le64 k.seqno ++ rest))).length < 4 := by
    simp [le32_length]
  have hl2 : ¬ (k.userKey ++ (le64 k.seqno ++ rest)).length < k.userKey.length + 8 := by
    simp [le64_length]
  rw [e1]
  unfold Key.decode
  simp only [hl1, if_false, t4, d4, leVal_le32 _ hlen, hl2, tk, dk, t8, d8,
    leVal_le64 _ hseq]

theorem value_decode_encode (v : Value) (rest : List Nat) (hv : wfValue v) :
    Value.decode (v.encode ++ rest) = .ok (v, rest) := by
  cases v with
  | tombstone => simp [Value.encode, Value.decode]
  | data d =>
    have hd : d.length < 2 ^ 32 := hv
    have e1 : Value.encode (.data d) ++ rest = 0 :: (le32 d.length ++ (d ++ rest)) := by
      simp [Value.encode]
    have t4 : (le32 d.length ++ (d ++ rest)).take 4 = le32 d.length :=
      take_pre _ _ 4 (le32_length _)
    have d4 : (le32 d.length ++ (d ++ rest)).drop 4 = d ++ rest :=
      drop_pre _ _ 4 (le32_length _)
    have td : (d ++ rest).take d.length = d := take_pre _ _ _ rfl
    have dd : (d ++ rest).drop d.length = rest := drop_pre _ _ _ rfl
    have hl1 : ¬ (le32 d.length ++ (d ++ rest)).length < 4 := by simp [le32_length]
    have hl2 : ¬ (d ++ rest).length < d.length := by simp
    rw [e1]
    simp only [Value.decode, if_true, hl1, if_false, t4, d4, leVal_le32 _ hd, hl2, td, dd,
      reduceIte]

/-- Claim C9: encoding a `Key` with `encode_to_bytes` (= `encode_into` on a
fresh buffer) and decoding with `decode_from` yields the original key and
leaves any trailing bytes untouched; likewise `Value::encode_into` /
`Value::decode_from` yields the original value. -/
theorem key_value_roundtrip (k : Key) (v : Value) (r1 r2 : List Nat)
    (hk : wfKey k) (hv : wfValue v) :
    Key.decode (k.encode ++ r1) = .ok (k, r1) ∧
    Value.decode (v.encode ++ r2) = .ok (v, r2) :=
  ⟨key_decode_encode k r1 hk, value_decode_encode v r2 hv⟩

theorem key_value_roundtrip_witness :
    wfKey ⟨[97, 98], 5⟩ ∧ wfValue (.data [1, 2]) ∧
    (Key.decode (Key.encode ⟨[97, 98], 5⟩ ++ [9]) = .ok (⟨[97, 98], 5⟩, [9]) ∧
      Value.decode (Value.encode (.data [1, 2]) ++ [7]) = .ok (.data [1, 2], [7])) :=
  ⟨by decide, by decide,
    key_value_roundtrip ⟨[97, 98], 5⟩ (.data [1, 2]) [9] [7] (by decide) (by decide)⟩

/-! ## Internal-key ordering (claim C2) -/

theorem bytesCmp_eq_iff (u v : List Nat) : bytesCmp u v = .eq ↔ u = v := by
  induction u generalizing v with
  | nil => cases v <;> simp [bytesCmp]
  | cons a as ih =>
    cases v with
    | nil => simp [bytesCmp]
    | cons b bs =>
      rcases h : compare a b with hlt | heq | hgt
      · simp only [bytesCmp, h]
        have : a ≠ b := by
          intro hab; rw [hab, Nat.compare_eq_lt] at h; omega
        simp [this]
      · have hab : a = b := Nat.compare_eq_eq.mp h
        subst hab
        simp [bytesCmp, h, ih]
      · simp only [bytesCmp, h]
        have : a ≠ b := by
          intro hab; rw [hab, Nat.compare_eq_gt] at h; omega
        simp [this]

theorem bytesCmp_lt_iff (u v : List Nat) : bytesCmp u v = .lt ↔ List.Lex (· < ·) u v := by
  induction u generalizing v with
  | nil =>
    cases v with
    | nil => simp [bytesCmp]
    | cons b bs => simp only [bytesCmp]; exact ⟨fun _ => List.Lex.nil, fun _ => by simp⟩
  | cons a as ih =>
    cases v with
    | nil =>
      simp only [bytesCmp]
      constructor
      · intro h; exact absurd h (by simp)
      · intro h; cases h
    | cons b bs =>
      rcases h : compare a b with hlt | heq | hgt
      · have hab : a < b := Nat.compare_eq_lt.mp h
        simp only [bytesCmp, h]
        exact ⟨fun _ => List.Lex.rel hab, fun _ => by simp⟩
      · have hab : a = b := Nat.compare_eq_eq.mp h
        subst hab
        simp only [bytesCmp, h]
        rw [ih, List.Lex.cons_iff]
      · have hab : b < a := Nat.compare_eq_gt.mp h
        simp only [bytesCmp, h]
        constructor
        · intro hc; exact absurd hc (by simp)
        · intro hc
          cases hc with
          | cons h' => omega
          | rel h' => omega

/-- Claim C2: the `Ord`/`PartialOrd` comparison on internal keys puts
`(u1, s1)` before `(u2, s2)` exactly when `u1 < u2` as unsigned byte
strings, or `u1 = u2` and `s1 > s2` — the seqno component is compared in
reverse. -/
theorem key_order_spec (k1 k2 : Key) :
    keyLt k1 k2 ↔
      List.Lex (· < ·) k1.userKey k2.userKey ∨
        (k1.userKey = k2.userKey ∧ k2.seqno < k1.seqno) := by
  unfold keyLt keyCmp
  rcases h : bytesCmp k1.userKey k2.userKey with hlt | heq | hgt
  · have : List.Lex (· < ·) k1.userKey k2.userKey := (bytesCmp_lt_iff _ _).mp h
    simp [this]
  · have hu : k1.userKey = k2.userKey := (bytesCmp_eq_iff _ _).mp h
    have hnl : ¬ List.Lex (· < ·) k1.userKey k2.userKey := by
      intro hc
      have := (bytesCmp_lt_iff _ _).mpr hc
      rw [h] at this
      exact absurd this (by simp)
    rcases hs : compare k1.seqno k2.seqno with h1 | h2 | h3
    · have : k1.seqno < k2.seqno := Nat.compare_eq_lt.mp hs
      simp only [reduceCtorEq, false_iff]
      intro hc
      rcases hc with hc | ⟨_, hc⟩
      · exact hnl hc
      · omega
    · have : k1.seqno = k2.seqno := Nat.compare_eq_eq.mp hs
      simp only [reduceCtorEq, false_iff]
      intro hc
      rcases hc with hc | ⟨_, hc⟩
      · exact hnl hc
      · omega
    · have : k2.seqno < k1.seqno := Nat.compare_eq_gt.mp hs
      simp [hu, this]
  · have hnl : ¬ List.Lex (· < ·) k1.userKey k2.userKey := by
      intro hc
      rw [← bytesCmp_lt_iff] at hc
      rw [h] at hc
      exact absurd hc (by simp)
    have hne : k1.userKey ≠ k2.userKey := by
      intro hc
      rw [← bytesCmp_eq_iff, h] at hc
      exact absurd hc (by simp)
    simp [hnl, hne]

/-! ## Framed codec lemmas (claims C5, C10) -/

theorem readFramed_nil (dec : List Nat → Except PError α) :
    readFramed dec [] = .error .unexpectedEnd := rfl

theorem readFramed_frame (dec : List Nat → Except PError α) (p rest : List Nat) (v : α)
    (hp : p ≠ []) (hlen : p.length < 2 ^ 32) (hdec : dec p = .ok v) :
    readFramed dec (frameBytes p ++ rest) = .ok (v, rest) := by
  have e1 : frameBytes p ++ rest = le32 p.length ++ (p ++ rest) := by
    simp [frameBytes]
  have t4 : (le32 p.length ++ (p ++ rest)).take 4 = le32 p.length :=
    take_pre _ _ 4 (le32_length _)
  have d4 : (le32 p.length ++ (p ++ rest)).drop 4 = p ++ rest :=
    drop_pre _ _ 4 (le32_length _)
  have tp : (p ++ rest).take p.length = p := take_pre _ _ _ rfl
  have dp : (p ++ rest).drop p.length = rest := drop_pre _ _ _ rfl
  have hl1 : ¬ (le32 p.length ++ (p ++ rest)).length < 4 := by simp [le32_length]
  have hl2 : ¬ (p ++ rest).length < p.length := by simp
  have hne : ¬ p.length = 0 := by
    intro hc; exact hp (List.length_eq_zero.mp hc)
  rw [e1]
  unfold readFramed
  simp only [hl1, if_false, t4, leVal_le32 _ hlen, hne, d4, hl2, tp, dp, hdec]

theorem readFramed_zero_len (dec : List Nat → Except PError α) (rest : List Nat) :
    readFramed dec (le32 0 ++ rest) = .error .unexpectedEnd := by
  have t4 : (le32 0 ++ rest).take 4 = le32 0 := take_pre _ _ 4 (le32_length _)
  have hl1 : ¬ (le32 0 ++ rest).length < 4 := by simp [le32_length]
  unfold readFramed
  simp only [hl1, if_false, t4, leVal_le32 0 (by norm_num)]
  simp

theorem readFramed_truncated (dec : List Nat → Except PError α) (n : Nat) (t : List Nat)
    (h0 : 0 < n) (hn : n < 2 ^ 32) (ht : t.length < n) :
    readFramed dec (le32 n ++ t) = .error .unexpectedEnd := by
  have t4 : (le32 n ++ t).take 4 = le32 n := take_pre _ _ 4 (le32_length _)
  have d4 : (le32 n ++ t).drop 4 = t := drop_pre _ _ 4 (le32_length _)
  have hl1 : ¬ (le32 n ++ t).length < 4 := by simp [le32_length]
  have hne : ¬ n = 0 := by omega
  unfold readFramed
  simp only [hl1, if_false, t4, leVal_le32 _ hn, hne, d4, if_pos ht, if_false]

theorem readAllFramedAux_stop (dec : List Nat → Except PError α) (tail : List Nat) (fuel : Nat)
    (h : readFramed dec tail = .error .unexpectedEnd) :
    readAllFramedAux dec (fuel + 1) tail = .ok [] := by
  unfold readAllFramedAux
  rw [h]

theorem readAllFramedAux_frames (ps : List (List Nat)) (tail : List Nat) (fuel : Nat)
    (hwf : ∀ p ∈ ps, p ≠ [] ∧ p.length < 2 ^ 32)
    (hfuel : ps.length ≤ fuel)
    (hstop : readFramed (Except.ok (α := List Nat)) tail = .error .unexpectedEnd) :
    readAllFramedAux Except.ok (fuel + 1) (framesOf ps ++ tail) = .ok ps := by
  induction ps generalizing fuel with
  | nil =>
    simp only [framesOf, List.map_nil, List.flatten_nil, List.nil_append]
    exact readAllFramedAux_stop _ _ _ hstop
  | cons p ps ih =>
    obtain ⟨hp, hlen⟩ := hwf p (by simp)
    have e1 : framesOf (p :: ps) ++ tail = frameBytes p ++ (framesOf ps ++ tail) := by
      simp [framesOf]
    obtain ⟨fuel', rfl⟩ : ∃ f', fuel = f' + 1 :=
      ⟨fuel - 1, by simp only [List.length_cons] at hfuel; omega⟩
    have hfuel' : ps.length ≤ fuel' := by
      simp only [List.length_cons] at hfuel; omega
    rw [e1]
    unfold readAllFramedAux
    rw [readFramed_frame Except.ok p (framesOf ps ++ tail) p hp hlen rfl]
    dsimp only
    rw [ih fuel' (fun q hq => hwf q (List.mem_cons_of_mem _ hq)) hfuel']

theorem framesOf_length_ge (ps : List (List Nat)) : ps.length ≤ (framesOf ps).length := by
  induction ps with
  | nil => simp [framesOf]
  | cons p ps ih =>
    have : (frameBytes p).length = 4 + p.length := by simp [frameBytes, le32_length]
    simp only [framesOf, List.map_cons, List.flatten_cons, List.length_append,
      List.length_cons]
    simp only [framesOf] at ih
    omega

theorem readAllFramed_frames_tail (ps : List (List Nat)) (tail : List Nat)
    (hwf : ∀ p ∈ ps, p ≠ [] ∧ p.length < 2 ^ 32)
    (hstop : readFramed (Except.ok (α := List Nat)) tail = .error .unexpectedEnd) :
    readAllFramed Except.ok (framesOf ps ++ tail) = .ok ps := by
  unfold readAllFramed
  apply readAllFramedAux_frames ps tail _ hwf _ hstop
  have h1 := framesOf_length_ge ps
  have h2 : (framesOf ps ++ tail).length = (framesOf ps).length + tail.length := by simp
  omega

/-- Claim C5 (amended): `read_all_framed` stops cleanly (returns `Ok` with
the records read so far) when EOF occurs at a frame boundary — and it also
stops cleanly, rather than returning an error, when the stream ends
mid-frame: `read_framed` reports the truncation as
`DeserializeUnexpectedEnd`, but `read_all_framed` cannot distinguish that
error from clean EOF and swallows it, discarding the truncated frame.
Only `read_framed` itself surfaces the mid-frame truncation as an error. -/
theorem framed_eof_behavior (ps : List (List Nat)) (n : Nat) (t : List Nat)
    (hwf : ∀ p ∈ ps, p ≠ [] ∧ p.length < 2 ^ 32)
    (h0 : 0 < n) (hn : n < 2 ^ 32) (ht : t.length < n) :
    readAllFramed Except.ok (framesOf ps) = .ok ps ∧
    readFramed (Except.ok (α := List Nat)) (le32 n ++ t) = .error .unexpectedEnd ∧
    readAllFramed Except.ok (framesOf ps ++ (le32 n ++ t)) = .ok ps := by
  refine ⟨?_, readFramed_truncated _ n t h0 hn ht, ?_⟩
  · have := readAllFramed_frames_tail ps [] hwf (readFramed_nil _)
    simpa using this
  · exact readAllFramed_frames_tail ps _ hwf (readFramed_truncated _ n t h0 hn ht)

theorem framed_eof_behavior_witness :
    (∀ p ∈ [[7]], p ≠ [] ∧ p.length < 2 ^ 32) ∧ 0 < 3 ∧ 3 < 2 ^ 32 ∧ [(1 : Nat)].length < 3 ∧
    (readAllFramed Except.ok (framesOf [[7]]) = .ok [[7]] ∧
      readFramed (Except.ok (α := List Nat)) (le32 3 ++ [1]) = .error .unexpectedEnd ∧
      readAllFramed Except.ok (framesOf [[7]] ++ (le32 3 ++ [1])) = .ok [[7]]) :=
  ⟨by decide, by decide, by norm_num, by decide,
    framed_eof_behavior [[7]] 3 [1] (by decide) (by decide) (by norm_num) (by decide)⟩

/-- Counterexample to claim C5 as stated: the stream `[1, 0, 0, 0]` is a
32-bit length prefix announcing one payload byte of which zero are
present — the stream ends mid-frame — yet `read_all_framed` returns `Ok`
(with no records) instead of an error. -/
theorem framed_midframe_not_error :
    readAllFramed Except.ok [1, 0, 0, 0] = .ok ([] : List (List Nat)) := rfl

/-- Claim C10: `write_framed` of an empty serialization produces the frame
`[0, 0, 0, 0]`; `read_framed` returns the end-of-input error on any frame
whose length prefix is 0; and `read_all_framed` therefore treats such a
frame as end of the log, returning exactly the records framed before it
and silently discarding the zero-length frame and everything after it. -/
theorem zero_length_frame_ends_log (ps : List (List Nat)) (rest : List Nat)
    (hwf : ∀ p ∈ ps, p ≠ [] ∧ p.length < 2 ^ 32) :
    writeFramed [] = .ok [0, 0, 0, 0] ∧
    readFramed (Except.ok (α := List Nat)) (frameBytes [] ++ rest) = .error .unexpectedEnd ∧
    readAllFramed Except.ok (framesOf ps ++ (frameBytes [] ++ rest)) = .ok ps := by
  have hz : frameBytes [] ++ rest = le32 0 ++ rest := by simp [frameBytes]
  refine ⟨rfl, ?_, ?_⟩
  · rw [hz]; exact readFramed_zero_len _ rest
  · exact readAllFramed_frames_tail ps _ hwf (by rw [hz]; exact readFramed_zero_len _ rest)

theorem zero_length_frame_ends_log_witness :
    (∀ p ∈ [[7], [8, 9]], p ≠ [] ∧ p.length < 2 ^ 32) ∧
    (writeFramed [] = .ok [0, 0, 0, 0] ∧
      readFramed (Except.ok (α := List Nat)) (frameBytes [] ++ [5, 6]) = .error .unexpectedEnd ∧
      readAllFramed Except.ok (framesOf [[7], [8, 9]] ++ (frameBytes [] ++ [5, 6]))
        = .ok [[7], [8, 9]]) :=
  ⟨by decide, zero_length_frame_ends_log [[7], [8, 9]] [5, 6] (by decide)⟩

/-! ## MemTable size accounting (claim C7) -/

theorem sizeSpec_cons (k : Key) (v : Value) (l : List (Key × Value)) :
    sizeSpec ((k, v) :: l) = k.userKey.length + v.payloadLen + sizeSpec l := by
  simp [sizeSpec]

theorem assocFind_payload_le (k : Key) (v : Value) (l : List (Key × Value))
    (h : assocFind k l = some v) :
    v.payloadLen + k.userKey.length ≤ sizeSpec l := by
  induction l with
  | nil => simp [assocFind] at h
  | cons e t ih =>
    obtain ⟨k', v'⟩ := e
    rw [sizeSpec_cons]
    by_cases hk : k' = k
    · rw [assocFind, if_pos hk] at h
      cases h
      subst hk
      omega
    · rw [assocFind, if_neg hk] at h
      have := ih h
      omega

theorem assocReplace_sizeSpec (k : Key) (v v' : Value) (l : List (Key × Value))
    (h : assocFind k l = some v) :
    sizeSpec (assocReplace k v' l) + v.payloadLen = sizeSpec l + v'.payloadLen := by
  induction l with
  | nil => simp [assocFind] at h
  | cons e t ih =>
    obtain ⟨k', w⟩ := e
    by_cases hk : k' = k
    · rw [assocFind, if_pos hk] at h
      cases h
      subst hk
      rw [assocReplace, if_pos rfl, sizeSpec_cons, sizeSpec_cons]
      omega
    · rw [assocFind, if_neg hk] at h
      rw [assocReplace, if_neg hk, sizeSpec_cons, sizeSpec_cons]
      have := ih h
      omega

/-- The size field tracks the specified byte estimate. -/
theorem mtPut_size (m : Mem) (k : Key) (v : List Nat) (h : m.size = sizeSpec m.data) :
    (mtPut m k v).size = sizeSpec (mtPut m k v).data := by
  unfold mtPut
  rcases hf : assocFind k m.data with _ | w
  · simp only
    rw [sizeSpec_cons]
    simp [Value.payloadLen, h]
    omega
  · cases w with
    | data old =>
      simp only
      have h1 := assocReplace_sizeSpec k (.data old) (.data v) m.data hf
      have h2 := assocFind_payload_le k (.data old) m.data hf
      simp only [Value.payloadLen] at h1 h2
      by_cases hc : old.length > v.length
      · rw [if_pos hc]; omega
      · rw [if_neg hc]; omega
    | tombstone =>
      simp only
      have h1 := assocReplace_sizeSpec k .tombstone (.data v) m.data hf
      simp only [Value.payloadLen] at h1
      omega

theorem mtDelete_size (m : Mem) (k : Key) (h : m.size = sizeSpec m.data) :
    (mtDelete m k).size = sizeSpec (mtDelete m k).data := by
  unfold mtDelete
  rcases hf : assocFind k m.data with _ | w
  · simp only
    rw [sizeSpec_cons]
    simp [Value.payloadLen, h]
    omega
  · cases w with
    | data old =>
      simp only
      have h1 := assocReplace_sizeSpec k (.data old) .tombstone m.data hf
      have h2 := assocFind_payload_le k (.data old) m.data hf
      simp only [Value.payloadLen] at h1 h2
      omega
    | tombstone =>
      simp only
      have h1 := assocReplace_sizeSpec k .tombstone .tombstone m.data hf
      simp only [Value.payloadLen] at h1
      omega

theorem applyMtOp_size (m : Mem) (op : MtOp) (h : m.size = sizeSpec m.data) :
    (applyMtOp m op).size = sizeSpec (applyMtOp m op).data := by
  cases op with
  | put k v => exact mtPut_size m k v h
  | del k => exact mtDelete_size m k h

/-- Claim C7: after any sequence of `put`/`delete` operations on an Active
memtable starting from `MemTable::new()`, the `size` field equals the sum
over current entries of `user_key_len + value_payload_len`, a tombstone
contributing zero payload. -/
theorem memtable_size_invariant (ops : List MtOp) :
    (applyMtOps ops).size = sizeSpec (applyMtOps ops).data := by
  suffices h : ∀ m, m.size = sizeSpec m.data →
      (ops.foldl applyMtOp m).size = sizeSpec (ops.foldl applyMtOp m).data by
    exact h mtNew (by simp [mtNew, sizeSpec])
  induction ops with
  | nil => intro m hm; simpa using hm
  | cons op rest ih =>
    intro m hm
    simp only [List.foldl_cons]
    exact ih _ (applyMtOp_size m op hm)

/-! ## Database read-your-writes (claim C1) -/

theorem getLatestEntry_mem (u : List Nat) (l : List (Key × Value)) (e : Key × Value)
    (h : getLatestEntry u l = some e) : e ∈ l := by
  induction l with
  | nil => simp [getLatestEntry] at h
  | cons hd t ih =>
    obtain ⟨k, v⟩ := hd
    simp only [getLatestEntry] at h
    by_cases hk : k.userKey = u
    · rw [if_pos hk] at h
      rcases hr : getLatestEntry u t with _ | e'
      · rw [hr] at h
        cases h
        exact List.mem_cons_self _ _
      · obtain ⟨k', v'⟩ := e'
        rw [hr] at h
        dsimp only at h
        by_cases hs : k.seqno < k'.seqno
        · rw [if_pos hs] at h
          cases h
          exact List.mem_cons_of_mem _ (ih hr)
        · rw [if_neg hs] at h
          cases h
          exact List.mem_cons_self _ _
    · rw [if_neg hk] at h
      exact List.mem_cons_of_mem _ (ih h)

theorem assocFind_none_of_seqno_lt (u : List Nat) (s : Nat) (l : List (Key × Value))
    (h : ∀ e ∈ l, e.1.seqno < s) : assocFind ⟨u, s⟩ l = none := by
  induction l with
  | nil => rfl
  | cons hd t ih =>
    obtain ⟨k, v⟩ := hd
    rw [assocFind]
    have hk : k ≠ ⟨u, s⟩ := by
      intro hc
      have := h (k, v) (List.mem_cons_self _ _)
      rw [hc] at this
      simp at this
    rw [if_neg hk]
    exact ih fun e he => h e (List.mem_cons_of_mem _ he)

theorem getLatestEntry_cons_fresh (u : List Nat) (s : Nat) (w : Value)
    (l : List (Key × Value)) (h : ∀ e ∈ l, e.1.seqno < s) :
    getLatestEntry u ((⟨u, s⟩, w) :: l) = some (⟨u, s⟩, w) := by
  cases hr : getLatestEntry u l with
  | none => simp only [getLatestEntry, hr]; rfl
  | some e =>
    obtain ⟨k', v'⟩ := e
    have hmem := getLatestEntry_mem u l (k', v') hr
    have hlt : k'.seqno < s := h (k', v') hmem
    have hcond : ¬ (({ userKey := u, seqno := s } : Key).seqno < k'.seqno) := by
      show ¬ s < k'.seqno
      omega
    simp only [getLatestEntry, hr, hcond, if_false]
    rfl

theorem getLatestEntry_replace_other (u : List Nat) (k : Key) (v : Value)
    (l : List (Key × Value)) (h : k.userKey ≠ u) :
    getLatestEntry u (assocReplace k v l) = getLatestEntry u l := by
  induction l with
  | nil => rfl
  | cons hd t ih =>
    obtain ⟨k', v'⟩ := hd
    rw [assocReplace]
    by_cases hk : k' = k
    · subst hk
      simp only [if_pos rfl, getLatestEntry, if_neg h]
    · rw [if_neg hk]
      simp only [getLatestEntry, ih]

theorem getLatest_mtPut_other (m : Mem) (k : Key) (v : List Nat) (u : List Nat)
    (h : k.userKey ≠ u) : getLatest (mtPut m k v) u = getLatest m u := by
  unfold getLatest mtPut
  rcases hf : assocFind k m.data with _ | w
  · simp only [getLatestEntry, if_neg h]
  · cases w <;> simp only [getLatestEntry_replace_other u k _ m.data h]

theorem getLatest_mtDelete_other (m : Mem) (k : Key) (u : List Nat)
    (h : k.userKey ≠ u) : getLatest (mtDelete m k) u = getLatest m u := by
  unfold getLatest mtDelete
  rcases hf : assocFind k m.data with _ | w
  · simp only [getLatestEntry, if_neg h]
  · cases w <;> simp only [getLatestEntry_replace_other u k _ m.data h]

theorem getLatest_mtNew (u : List Nat) : getLatest mtNew u = none := rfl

theorem dbGet_freeze (st : DbState) (u : List Nat) (hf : flushedBound st) :
    dbGet (dbFreeze st) u = dbGet st u := by
  unfold dbGet dbFreeze
  have hdrop : (st.imm ++ [st.table]).drop st.flushed
      = st.imm.drop st.flushed ++ [st.table] := by
    rw [List.drop_append_eq_append_drop]
    rw [Nat.sub_eq_zero_of_le hf]
    rfl
  simp only [hdrop, List.reverse_append, List.reverse_cons, List.reverse_nil,
    List.nil_append, List.singleton_append]
  rw [searchTables, getLatest_mtNew]

theorem dbGet_put_other (st : DbState) (k v u : List Nat) (h : k ≠ u) :
    dbGet (dbPut st k v) u = dbGet st u := by
  unfold dbGet dbPut
  rw [searchTables, searchTables,
    getLatest_mtPut_other st.table ⟨k, st.seqno⟩ v u h]

theorem dbGet_delete_other (st : DbState) (k u : List Nat) (h : k ≠ u) :
    dbGet (dbDelete st k) u = dbGet st u := by
  unfold dbGet dbDelete
  rw [searchTables, searchTables,
    getLatest_mtDelete_other st.table ⟨k, st.seqno⟩ u h]

theorem applyDbOp_preserves (st : DbState) (op : DbOp) (u : List Nat)
    (hop : avoidsKey u op) (hf : flushedBound st) :
    dbGet (applyDbOp st op) u = dbGet st u ∧ flushedBound (applyDbOp st op) := by
  cases op with
  | put k v => exact ⟨dbGet_put_other st k v u hop, hf⟩
  | del k => exact ⟨dbGet_delete_other st k u hop, hf⟩
  | freeze =>
    refine ⟨dbGet_freeze st u hf, ?_⟩
    show flushedBound (dbFreeze st)
    unfold flushedBound at hf ⊢
    unfold dbFreeze
    simp only [List.length_append, List.length_cons, List.length_nil]
    omega
  | flushMark => exact absurd hop (by simp [avoidsKey])
  | compact => exact absurd hop (by simp [avoidsKey])

theorem applyDbOps_preserves (ops : List DbOp) (st : DbState) (u : List Nat)
    (hops : ∀ op ∈ ops, avoidsKey u op) (hf : flushedBound st) :
    dbGet (applyDbOps st ops) u = dbGet st u := by
  induction ops generalizing st with
  | nil => rfl
  | cons op rest ih =>
    have h1 := applyDbOp_preserves st op u (hops op (List.mem_cons_self _ _)) hf
    calc dbGet (applyDbOps st (op :: rest)) u
        = dbGet (applyDbOps (applyDbOp st op) rest) u := rfl
      _ = dbGet (applyDbOp st op) u :=
          ih _ (fun o ho => hops o (List.mem_cons_of_mem _ ho)) h1.2
      _ = dbGet st u := h1.1

theorem dbGet_put_self (st : DbState) (k v : List Nat)
    (hs : ∀ e ∈ st.table.data, e.1.seqno < st.seqno) :
    dbGet (dbPut st k v) k = some v := by
  unfold dbGet dbPut
  rw [searchTables]
  have hnone := assocFind_none_of_seqno_lt k st.seqno st.table.data hs
  unfold getLatest mtPut
  rw [hnone, getLatestEntry_cons_fresh k st.seqno (.data v) st.table.data hs]
  rfl

theorem dbGet_delete_self (st : DbState) (k : List Nat)
    (hs : ∀ e ∈ st.table.data, e.1.seqno < st.seqno) :
    dbGet (dbDelete st k) k = none := by
  unfold dbGet dbDelete
  rw [searchTables]
  have hnone := assocFind_none_of_seqno_lt k st.seqno st.table.data hs
  unfold getLatest mtDelete
  rw [hnone, getLatestEntry_cons_fresh k st.seqno .tombstone st.table.data hs]
  rfl

/-- Claim C1 (amended): after a successful `put(K, V)` with no intervening
`put(K, _)` or `delete(K)`, `get(K)` returns `Some(V)` — and after a
`delete(K)`, `get(K)` returns `None` — at every later in-memory moment:
through any sequence of puts and deletes of other keys and any number of
memtable freezes.  The original claim's "after the flusher has drained and
compacted the frozen queue" does not hold for `put`: the read path stops
after the frozen queue (the SSTable tier is a TODO in `Database::get`),
so once the frozen table holding the entry is marked flushed and the
queue compacted, `get(K)` returns `None` (see the counterexample). -/
theorem db_read_your_writes (st : DbState) (K V : List Nat) (ops : List DbOp)
    (hf : flushedBound st)
    (hs : ∀ e ∈ st.table.data, e.1.seqno < st.seqno)
    (hops : ∀ op ∈ ops, avoidsKey K op) :
    dbGet (applyDbOps (dbPut st K V) ops) K = some V ∧
    dbGet (applyDbOps (dbDelete st K) ops) K = none := by
  constructor
  · rw [applyDbOps_preserves ops (dbPut st K V) K hops hf]
    exact dbGet_put_self st K V hs
  · rw [applyDbOps_preserves ops (dbDelete st K) K hops hf]
    exact dbGet_delete_self st K hs

theorem db_read_your_writes_witness :
    flushedBound dbInit ∧ (∀ e ∈ dbInit.table.data, e.1.seqno < dbInit.seqno) ∧
    (∀ op ∈ [DbOp.put [2] [3], DbOp.freeze, DbOp.del [2]], avoidsKey [0] op) ∧
    (dbGet (applyDbOps (dbPut dbInit [0] [1]) [DbOp.put [2] [3], DbOp.freeze, DbOp.del [2]]) [0]
        = some [1] ∧
      dbGet (applyDbOps (dbDelete dbInit [0]) [DbOp.put [2] [3], DbOp.freeze, DbOp.del [2]]) [0]
        = none) :=
  ⟨by decide, by decide, by decide,
    db_read_your_writes dbInit [0] [1] [DbOp.put [2] [3], DbOp.freeze, DbOp.del [2]]
      (by decide) (by decide) (by decide)⟩

/-- Counterexample to claim C1 as stated: put `K = [0]`, `V = [1]` on a
fresh database, freeze the active memtable, let the flusher drain the
frozen queue (`mark_flushed`) and compact it — exactly the "after the
flusher has drained and compacted the frozen queue" moment of the claim.
`get([0])` then returns `None`, not `Some [1]`, because `Database::get`
never consults SSTables. -/
theorem db_get_after_drain_counterexample :
    dbGet (dbCompact (dbMarkFlushed (dbFreeze (dbPut dbInit [0] [1])))) [0] = none ∧
    dbGet (dbCompact (dbMarkFlushed (dbFreeze (dbPut dbInit [0] [1])))) [0] ≠ some [1] := by
  decide

/-! ## Manifest record application (claims C3, C4)

In one process run, allocating the first SSTable file number appends
`AllocFileNumber(1)` to a manifest whose bootstrap `Snapshot` carries
`next_file_number = 1` (the manifest allocated number 0 for itself).
`append_record` raises the in-memory counter to `max(next, file_no + 1)`,
but the replay arm of `load_from_file` only raises it to
`max(file_no, next)` — so after reopening, `next_file_number` equals the
last allocated number instead of exceeding it.  Likewise `append_record`
applies `SetLastSeqNo` by taking the max, while replay assigns the
recorded value directly, so a replayed sequence can decrease
`last_committed_sequence_number`. -/

/-- Claim C3 evaluated at the failing input: replaying the manifest log
`[Snapshot{next_file_number = 1}, AllocFileNumber(1)]` leaves
`next_file_number = 1`, not strictly greater than the allocated number 1 —
while the `append_record` arm applied to the same record yields 2, as the
claim states for both arms. -/
theorem manifest_alloc_replay_eval :
    (loadFromRecords
        [.snapshot { manifestNew with nextFileNumber := 1 }, .allocFileNumber 1]).nextFileNumber
      = 1 ∧
    ¬ (∀ n ∈ allocatedNumbers
        [.snapshot { manifestNew with nextFileNumber := 1 }, .allocFileNumber 1],
        n < (loadFromRecords
          [.snapshot { manifestNew with nextFileNumber := 1 },
            .allocFileNumber 1]).nextFileNumber) ∧
    (applyManagerRecord { manifestNew with nextFileNumber := 1 }
        (.allocFileNumber 1)).nextFileNumber = 2 := by
  refine ⟨rfl, ?_, rfl⟩
  decide

/-- Claim C4 evaluated at the failing input: replaying
`[SetLastSeqNo(5), SetLastSeqNo(3)]` via `load_from_file` yields
`last_committed_sequence_number = 3` — the value decreased — while
applying the same two records through `append_record` yields 5, the max,
as the claim states for both arms. -/
theorem manifest_seqno_replay_eval :
    (loadFromRecords [.setLastSeqNo 5, .setLastSeqNo 3]).lastCommittedSequenceNumber = 3 ∧
    (applyManagerRecords manifestNew
        [.setLastSeqNo 5, .setLastSeqNo 3]).lastCommittedSequenceNumber = 5 :=
  ⟨rfl, rfl⟩

/-! ## WAL byte format (claim C6) -/

theorem bind_ok_eq {α β ε : Type} (a : α) (f : α → Except ε β) :
    (Except.ok a : Except ε α) >>= f = f a := rfl

theorem varintDecode_varint (n : Nat) (rest : List Nat) (h : n < 2 ^ 64) :
    varintDecode (varint n ++ rest) = .ok (n, rest) := by
  unfold varint
  by_cases h1 : n < 251
  · rw [if_pos h1]
    simp only [List.cons_append, List.nil_append, varintDecode, if_pos h1]
  · rw [if_neg h1]
    by_cases h2 : n < 2 ^ 16
    · rw [if_pos h2]
      have t2 : (le16 n ++ rest).take 2 = le16 n := take_pre _ _ 2 (le16_length _)
      have d2 : (le16 n ++ rest).drop 2 = rest := drop_pre _ _ 2 (le16_length _)
      have hl : ¬ (le16 n ++ rest).length < 2 := by simp [le16_length]
      simp only [List.cons_append, varintDecode, hl, if_false, t2, d2,
        leVal_le16 _ h2]
      norm_num
    · rw [if_neg h2]
      by_cases h3 : n < 2 ^ 32
      · rw [if_pos h3]
        have t4 : (le32 n ++ rest).take 4 = le32 n := take_pre _ _ 4 (le32_length _)
        have d4 : (le32 n ++ rest).drop 4 = rest := drop_pre _ _ 4 (le32_length _)
        have hl : ¬ (le32 n ++ rest).length < 4 := by simp [le32_length]
        simp only [List.cons_append, varintDecode, hl, if_false, t4, d4,
          leVal_le32 _ h3]
        norm_num
      · rw [if_neg h3]
        have t8 : (le64 n ++ rest).take 8 = le64 n := take_pre _ _ 8 (le64_length _)
        have d8 : (le64 n ++ rest).drop 8 = rest := drop_pre _ _ 8 (le64_length _)
        have hl : ¬ (le64 n ++ rest).length < 8 := by simp [le64_length]
        simp only [List.cons_append, varintDecode, hl, if_false, t8, d8,
          leVal_le64 _ h]
        norm_num

theorem keyBincodeDecode_encode (k : Key) (rest : List Nat)
    (hlen : k.userKey.length < 2 ^ 64) (hseq : k.seqno < 2 ^ 64) :
    keyBincodeDecode (keyBincode k ++ rest) = .ok (k, rest) := by
  have e1 : keyBincode k ++ rest
      = varint k.userKey.length ++ (k.userKey ++ (varint k.seqno ++ rest)) := by
    simp [keyBincode]
  have tk : (k.userKey ++ (varint k.seqno ++ rest)).take k.userKey.length = k.userKey :=
    take_pre _ _ _ rfl
  have dk : (k.userKey ++ (varint k.seqno ++ rest)).drop k.userKey.length
      = varint k.seqno ++ rest := drop_pre _ _ _ rfl
  have hl : ¬ (k.userKey ++ (varint k.seqno ++ rest)).length < k.userKey.length := by simp
  rw [e1]
  unfold keyBincodeDecode
  rw [varintDecode_varint _ _ hlen]
  simp only [bind_ok_eq]
  rw [if_neg hl, dk, varintDecode_varint _ _ hseq]
  simp only [bind_ok_eq]
  rw [tk]

theorem walDecodeRecord_encode (r : WalRecord) (rest : List Nat) (h : wfWalRecord r) :
    walDecodeRecord (walEncodeRecord r ++ rest) = .ok (r, rest) := by
  cases r with
  | put k v =>
    obtain ⟨h1, h2, h3⟩ := h
    have e1 : walEncodeRecord (.put k v) ++ rest
        = varint 0 ++ (keyBincode k ++ (varint v.length ++ (v ++ rest))) := by
      simp [walEncodeRecord]
    have tv : (v ++ rest).take v.length = v := take_pre _ _ _ rfl
    have dv : (v ++ rest).drop v.length = rest := drop_pre _ _ _ rfl
    have hl : ¬ (v ++ rest).length < v.length := by simp
    rw [e1]
    unfold walDecodeRecord
    rw [varintDecode_varint 0 _ (by norm_num)]
    simp only [bind_ok_eq]
    simp only [if_true]
    rw [keyBincodeDecode_encode k _ h1 h2]
    simp only [bind_ok_eq]
    rw [varintDecode_varint _ _ h3]
    simp only [bind_ok_eq]
    rw [if_neg hl, tv, dv]
  | del k =>
    obtain ⟨h1, h2⟩ := h
    have e1 : walEncodeRecord (.del k) ++ rest = varint 1 ++ (keyBincode k ++ rest) := by
      simp [walEncodeRecord]
    rw [e1]
    unfold walDecodeRecord
    rw [varintDecode_varint 1 _ (by norm_num)]
    simp only [bind_ok_eq]
    simp only [if_true]
    rw [keyBincodeDecode_encode k _ h1 h2]
    simp only [bind_ok_eq]
    norm_num

theorem walStream_eq_flatten (rs : List WalRecord) :
    walStream rs = (rs.map walEncodeRecord).flatten := by
  suffices h : ∀ init, rs.foldl walAppend init = init ++ (rs.map walEncodeRecord).flatten by
    simpa using h []
  induction rs with
  | nil => intro init; simp [walStream]
  | cons r rest ih =>
    intro init
    simp only [List.foldl_cons, List.map_cons, List.flatten_cons, ih, walAppend,
      List.append_assoc]

theorem walEncodeRecord_ne_nil (r : WalRecord) : walEncodeRecord r ≠ [] := by
  cases r <;> simp [walEncodeRecord, varint]

theorem walDecodeAllAux_stream (rs : List WalRecord) (fuel : Nat)
    (h : ∀ r ∈ rs, wfWalRecord r) (hfuel : rs.length ≤ fuel) :
    walDecodeAllAux (fuel + 1) ((rs.map walEncodeRecord).flatten) = some rs := by
  induction rs generalizing fuel with
  | nil =>
    simp only [List.map_nil, List.flatten_nil]
    rfl
  | cons r rest ih =>
    obtain ⟨fuel', rfl⟩ : ∃ f', fuel = f' + 1 :=
      ⟨fuel - 1, by simp only [List.length_cons] at hfuel; omega⟩
    have hfuel' : rest.length ≤ fuel' := by
      simp only [List.length_cons] at hfuel; omega
    simp only [List.map_cons, List.flatten_cons]
    unfold walDecodeAllAux
    rw [walDecodeRecord_encode r _ (h r (List.mem_cons_self _ _))]
    dsimp only
    rw [ih fuel' (fun q hq => h q (List.mem_cons_of_mem _ hq)) hfuel']

theorem length_le_flatten_length (rs : List WalRecord) :
    rs.length ≤ ((rs.map walEncodeRecord).flatten).length := by
  induction rs with
  | nil => simp
  | cons r rest ih =>
    have h1 : walEncodeRecord r ≠ [] := walEncodeRecord_ne_nil r
    have h2 : 1 ≤ (walEncodeRecord r).length := by
      cases he : walEncodeRecord r with
      | nil => exact absurd he h1
      | cons a t => simp
    simp only [List.map_cons, List.flatten_cons, List.length_append, List.length_cons]
    omega

/-- Claim C6 (amended): `Wal::append` writes the bincode standard
(little-endian, varint) serialization of the `WalRecord` directly, with no
`u32` length prefix — the WAL byte stream is the concatenation of these
self-describing encodings, and `Wal::replay` decodes them back in order.
The claimed frame format `u32 len | payload` is the manifest codec
(`src/framed.rs`), which the WAL does not use. -/
theorem wal_stream_roundtrip (rs : List WalRecord) (h : ∀ r ∈ rs, wfWalRecord r) :
    walStream rs = (rs.map walEncodeRecord).flatten ∧
    walDecodeAll (walStream rs) = some rs := by
  refine ⟨walStream_eq_flatten rs, ?_⟩
  rw [walStream_eq_flatten rs]
  unfold walDecodeAll
  exact walDecodeAllAux_stream rs _ h (le_trans (length_le_flatten_length rs) (by omega))

theorem wal_stream_roundtrip_witness :
    (∀ r ∈ [WalRecord.put ⟨[97], 0⟩ [120], WalRecord.del ⟨[98], 1⟩], wfWalRecord r) ∧
    (walStream [WalRecord.put ⟨[97], 0⟩ [120], WalRecord.del ⟨[98], 1⟩]
        = ([WalRecord.put ⟨[97], 0⟩ [120],
            WalRecord.del ⟨[98], 1⟩].map walEncodeRecord).flatten ∧
      walDecodeAll (walStream [WalRecord.put ⟨[97], 0⟩ [120], WalRecord.del ⟨[98], 1⟩])
        = some [WalRecord.put ⟨[97], 0⟩ [120], WalRecord.del ⟨[98], 1⟩]) :=
  ⟨by decide,
    wal_stream_roundtrip [WalRecord.put ⟨[97], 0⟩ [120], WalRecord.del ⟨[98], 1⟩] (by decide)⟩

/-- Counterexample to claim C6 as stated: appending the single record
`Put{key: ("a", 0), val: "x"}` produces the six bytes
`[0, 1, 97, 0, 1, 120]` — and there is no payload for which that stream
is `u32 le len | payload`, since that would force the first four bytes to
be `[2, 0, 0, 0]`. -/
theorem wal_append_not_framed :
    ¬ ∃ payload : List Nat,
      walStream [.put ⟨[97], 0⟩ [120]] = le32 payload.length ++ payload := by
  rintro ⟨p, hp⟩
  have hs : walStream [.put ⟨[97], 0⟩ [120]] = [0, 1, 97, 0, 1, 120] := rfl
  rw [hs] at hp
  have hlen := congrArg List.length hp
  simp only [List.length_append, le32_length, List.length_cons, List.length_nil] at hlen
  have hplen : p.length = 2 := by omega
  rw [hplen] at hp
  simp [le32, leBytes] at hp

/-! ## SSTable flush output parses (claim C8) -/

theorem footer_encode_length (f : SSTableFooter) : f.encode.length = 32 := by
  simp [SSTableFooter.encode, le64_length, le32_length]

theorem parseIndexEntries_encode (metas : List BlockMeta) (rest : List Nat)
    (hwf : ∀ m ∈ metas, wfBlockMeta m) :
    parseIndexEntries metas.length
      ((metas.map fun m => m.lastKey.encode ++ le64 m.offset ++ le32 m.size).flatten ++ rest)
      = some (metas, rest) := by
  induction metas with
  | nil => rfl
  | cons m ms ih =>
    obtain ⟨hk, ho, hs⟩ := hwf m (List.mem_cons_self _ _)
    obtain ⟨mk, mo, msz⟩ := m
    simp only [wfBlockMeta] at hk ho hs
    have e1 : ((((⟨mk, mo, msz⟩ : BlockMeta) :: ms).map
          fun m => m.lastKey.encode ++ le64 m.offset ++ le32 m.size).flatten ++ rest)
        = mk.encode ++ (le64 mo ++ (le32 msz
            ++ ((ms.map fun m => m.lastKey.encode ++ le64 m.offset ++ le32 m.size).flatten
                ++ rest))) := by
      simp [List.append_assoc]
    have hr1 := key_decode_encode mk
      (le64 mo ++ (le32 msz
        ++ ((ms.map fun m => m.lastKey.encode ++ le64 m.offset ++ le32 m.size).flatten ++ rest)))
      hk
    have t8 : (le64 mo ++ (le32 msz
        ++ ((ms.map fun m => m.lastKey.encode ++ le64 m.offset ++ le32 m.size).flatten
          ++ rest))).take 8 = le64 mo := take_pre _ _ 8 (le64_length _)
    have d8 : (le64 mo ++ (le32 msz
        ++ ((ms.map fun m => m.lastKey.encode ++ le64 m.offset ++ le32 m.size).flatten
          ++ rest))).drop 8
        = le32 msz
            ++ ((ms.map fun m => m.lastKey.encode ++ le64 m.offset ++ le32 m.size).flatten
              ++ rest) := drop_pre _ _ 8 (le64_length _)
    have t4 : (le32 msz
        ++ ((ms.map fun m => m.lastKey.encode ++ le64 m.offset ++ le32 m.size).flatten
          ++ rest)).take 4 = le32 msz := take_pre _ _ 4 (le32_length _)
    have d4 : (le32 msz
        ++ ((ms.map fun m => m.lastKey.encode ++ le64 m.offset ++ le32 m.size).flatten
          ++ rest)).drop 4
        = (ms.map fun m => m.lastKey.encode ++ le64 m.offset ++ le32 m.size).flatten
            ++ rest := drop_pre _ _ 4 (le32_length _)
    have d12 : (le64 mo ++ (le32 msz
        ++ ((ms.map fun m => m.lastKey.encode ++ le64 m.offset ++ le32 m.size).flatten
          ++ rest))).drop 12
        = (ms.map fun m => m.lastKey.encode ++ le64 m.offset ++ le32 m.size).flatten
            ++ rest := by
      have h12 : (12 : Nat) = 8 + 4 := rfl
      rw [h12, ← List.drop_drop, d8, d4]
    have hl12 : ¬ (le64 mo ++ (le32 msz
        ++ ((ms.map fun m => m.lastKey.encode ++ le64 m.offset ++ le32 m.size).flatten
          ++ rest))).length < 12 := by
      simp only [List.length_append, le64_length, le32_length, not_lt]
      omega
    rw [List.length_cons, e1]
    unfold parseIndexEntries
    rw [hr1]
    simp only [hl12, if_false, t8, d8, t4, d12, leVal_le64 _ ho, leVal_le32 _ hs,
      ih fun q hq => hwf q (List.mem_cons_of_mem _ hq)]

theorem finalizeFile_good (D : List Nat) (metas : List BlockMeta)
    (hwf : ∀ m ∈ metas, wfBlockMeta m) (hcount : metas.length < 2 ^ 32)
    (hD : D.length < 2 ^ 64)
    (hbound : ∀ m ∈ metas, m.offset + m.size ≤ D.length) :
    goodSSTableFile (finalizeFile D metas) := by
  have hftr : (SSTableFooter.encode ⟨D.length, (indexBlockBytes metas).length, 0, 0,
      SSTABLE_MAGIC⟩)
      = le64 D.length ++ (le64 (indexBlockBytes metas).length
          ++ (le64 0 ++ (le32 0 ++ le32 SSTABLE_MAGIC))) := by
    simp [SSTableFooter.encode, List.append_assoc]
  set ftr := SSTableFooter.encode ⟨D.length, (indexBlockBytes metas).length, 0, 0,
    SSTABLE_MAGIC⟩ with hftrdef
  set idx := indexBlockBytes metas with hidxdef
  have hfile : finalizeFile D metas = (D ++ idx) ++ ftr := by
    simp [finalizeFile, List.append_assoc]
  have hftrlen : ftr.length = 32 := footer_encode_length _
  have hlen : ((D ++ idx) ++ ftr).length = D.length + idx.length + 32 := by
    simp [hftrlen]
    omega
  have hfb : ((D ++ idx) ++ ftr).drop (((D ++ idx) ++ ftr).length - FOOTER_SIZE) = ftr := by
    have h1 : ((D ++ idx) ++ ftr).length - FOOTER_SIZE = (D ++ idx).length := by
      unfold FOOTER_SIZE
      simp [hftrlen]
      omega
    rw [h1]
    exact drop_pre _ _ _ rfl
  have t8 : ftr.take 8 = le64 D.length := by
    rw [hftr]; exact take_pre _ _ 8 (le64_length _)
  have s1 : ftr.drop 8 = le64 idx.length ++ (le64 0 ++ (le32 0 ++ le32 SSTABLE_MAGIC)) := by
    rw [hftr]; exact drop_pre _ _ 8 (le64_length _)
  have s2 : (ftr.drop 8).drop 8 = le64 0 ++ (le32 0 ++ le32 SSTABLE_MAGIC) := by
    rw [s1]; exact drop_pre _ _ 8 (le64_length _)
  have s3 : ((ftr.drop 8).drop 8).drop 8 = le32 0 ++ le32 SSTABLE_MAGIC := by
    rw [s2]; exact drop_pre _ _ 8 (le64_length _)
  have s4 : (((ftr.drop 8).drop 8).drop 8).drop 4 = le32 SSTABLE_MAGIC := by
    rw [s3]; exact drop_pre _ _ 4 (le32_length _)
  have h28 : ftr.drop 28 = le32 SSTABLE_MAGIC := by
    rw [← s4]
    simp [List.drop_drop]
  have hmagic : leVal ((ftr.drop 28).take 4) = SSTABLE_MAGIC := by
    rw [h28]
    have : (le32 SSTABLE_MAGIC).take 4 = le32 SSTABLE_MAGIC := by
      rw [← le32_length SSTABLE_MAGIC]
      exact List.take_length _
    rw [this]
    exact leVal_le32 _ (by norm_num [SSTABLE_MAGIC])
  have hoff : leVal (ftr.take 8) = D.length := by
    rw [t8]; exact leVal_le64 _ hD
  have hnotshort : ¬ ((D ++ idx) ++ ftr).length < FOOTER_SIZE := by
    rw [hlen]; unfold FOOTER_SIZE; omega
  have hidxat : ((D ++ idx) ++ ftr).drop D.length = idx ++ ftr := by
    rw [List.append_assoc]
    exact drop_pre _ _ _ rfl
  have e3 : idx ++ ftr = le32 metas.length
      ++ ((metas.map fun m => m.lastKey.encode ++ le64 m.offset ++ le32 m.size).flatten
        ++ ftr) := by
    rw [hidxdef]
    simp [indexBlockBytes, List.append_assoc]
  have tc4 : (idx ++ ftr).take 4 = le32 metas.length := by
    rw [e3]; exact take_pre _ _ 4 (le32_length _)
  have dc4 : (idx ++ ftr).drop 4
      = (metas.map fun m => m.lastKey.encode ++ le64 m.offset ++ le32 m.size).flatten
        ++ ftr := by
    rw [e3]; exact drop_pre _ _ 4 (le32_length _)
  have hidxlong : ¬ (idx ++ ftr).length < 4 := by
    rw [e3]
    simp [le32_length]
  have hcountval : leVal ((idx ++ ftr).take 4) = metas.length := by
    rw [tc4]; exact leVal_le32 _ hcount
  refine ⟨⟨D.length, leVal ((ftr.drop 8).take 8), leVal ((ftr.drop 16).take 8),
    leVal ((ftr.drop 24).take 4), SSTABLE_MAGIC⟩, metas, ?_, rfl, ?_⟩
  · rw [hfile]
    unfold parseSSTable
    simp only [hnotshort, if_false, hfb, hoff, hmagic, hidxat, hidxlong, hcountval, dc4,
      parseIndexEntries_encode metas ftr hwf, ne_eq, not_true_eq_false, if_false]
  · intro m hm
    exact hbound m hm

/-- The new block-metadata entry pushed when the current block closes. -/
def closedMeta (acc : FlushAcc) (e : Key × Value) : BlockMeta :=
  ⟨e.1, acc.fileData.length, (acc.currentBlock ++ e.1.encode ++ e.2.encode).length % 2 ^ 32⟩

theorem flushEntry_inv (acc : FlushAcc) (e : Key × Value) (N : Nat)
    (hinv : flushInv acc) (he : wfFlushEntry e) (hN : N ≤ 2 ^ 40)
    (hsize : acc.fileData.length + acc.currentBlock.length + entryEncLen e ≤ N) :
    flushInv (flushEntry acc e) ∧
    (flushEntry acc e).fileData.length + (flushEntry acc e).currentBlock.length
      ≤ acc.fileData.length + acc.currentBlock.length + entryEncLen e := by
  obtain ⟨ha, hb, hc, hd, hfiles⟩ := hinv
  obtain ⟨hek, hev, hesz⟩ := he
  have hBS : BLOCK_SIZE = 16384 := rfl
  have h32 : (2 : Nat) ^ 32 = 4294967296 := by norm_num
  have h40 : (2 : Nat) ^ 40 = 1099511627776 := by norm_num
  have h64 : (2 : Nat) ^ 64 = 18446744073709551616 := by norm_num
  have hcb : (acc.currentBlock ++ e.1.encode ++ e.2.encode).length
      = acc.currentBlock.length + entryEncLen e := by
    simp [entryEncLen]
  have hee : entryEncLen e = e.1.encode.length + e.2.encode.length := rfl
  have hfoldm : (⟨e.1, acc.fileData.length,
      (acc.currentBlock ++ e.1.encode ++ e.2.encode).length % 2 ^ 32⟩ : BlockMeta)
      = closedMeta acc e := rfl
  by_cases h1 : BLOCK_SIZE ≤ (acc.currentBlock ++ e.1.encode ++ e.2.encode).length
  · have hcb32 : (acc.currentBlock ++ e.1.encode ++ e.2.encode).length < 2 ^ 32 := by
      rw [hcb]; omega
    have hmod : (acc.currentBlock ++ e.1.encode ++ e.2.encode).length % 2 ^ 32
        = (acc.currentBlock ++ e.1.encode ++ e.2.encode).length :=
      Nat.mod_eq_of_lt hcb32
    have hmetawf : ∀ m ∈ acc.blockMeta ++ [closedMeta acc e],
        wfBlockMeta m ∧ m.offset + m.size
          ≤ (acc.fileData ++ (acc.currentBlock ++ e.1.encode ++ e.2.encode)).length := by
      intro m hm
      rcases List.mem_append.mp hm with hold | hnew
      · obtain ⟨hb1, hb2, hb3⟩ := hb m hold
        refine ⟨⟨hb2, by omega, hb3⟩, ?_⟩
        simp only [List.length_append]
        omega
      · have hmn : m = closedMeta acc e := List.mem_singleton.mp hnew
        subst hmn
        unfold closedMeta
        refine ⟨⟨hek, by simp only; omega, by simp only; exact Nat.mod_lt _ (by omega)⟩, ?_⟩
        simp only [hmod, List.length_append]
        omega
    have hcount : (acc.blockMeta ++ [closedMeta acc e]).length < 2 ^ 32 := by
      simp only [List.length_append, List.length_cons, List.length_nil]
      rw [hBS] at hc
      omega
    have hD64 : (acc.fileData ++ (acc.currentBlock ++ e.1.encode ++ e.2.encode)).length
        < 2 ^ 64 := by
      simp only [List.length_append]
      omega
    have hgood : goodSSTableFile (finalizeFile
        (acc.fileData ++ (acc.currentBlock ++ e.1.encode ++ e.2.encode))
        (acc.blockMeta ++ [closedMeta acc e])) :=
      finalizeFile_good _ _ (fun m hm => (hmetawf m hm).1) hcount hD64
        (fun m hm => (hmetawf m hm).2)
    by_cases h2 : BASE_LEVEL_SIZE ≤ acc.sstableSize
        + (acc.currentBlock ++ e.1.encode ++ e.2.encode).length
        + indexBlockSize (acc.blockMeta ++ [closedMeta acc e])
        + FOOTER_SIZE
    · have hstep : flushEntry acc e =
          { files := acc.files ++ [finalizeFile
              (acc.fileData ++ (acc.currentBlock ++ e.1.encode ++ e.2.encode))
              (acc.blockMeta ++ [closedMeta acc e])]
            fileData := []
            blockMeta := []
            currentBlock := []
            sstableSize := 0
            firstKey := none
            lastKey := none } := by
        unfold flushEntry
        rw [if_pos h1, hfoldm, if_pos h2]
      rw [hstep]
      refine ⟨⟨by rw [hBS]; simp, ?_, by simp, ?_, ?_⟩, by simp⟩
      · intro m hm; simp at hm
      · intro k hk; simp at hk
      · intro f hf
        simp only at hf
        rcases List.mem_append.mp hf with hold | hnew
        · exact hfiles f hold
        · rw [List.mem_singleton.mp hnew]
          exact hgood
    · have hstep : flushEntry acc e =
          { acc with
            fileData := acc.fileData ++ (acc.currentBlock ++ e.1.encode ++ e.2.encode)
            blockMeta := acc.blockMeta ++ [closedMeta acc e]
            currentBlock := []
            sstableSize := acc.sstableSize
              + (acc.currentBlock ++ e.1.encode ++ e.2.encode).length
            firstKey := some (acc.firstKey.getD e.1)
            lastKey := some e.1 } := by
        unfold flushEntry
        rw [if_pos h1, hfoldm, if_neg h2]
      rw [hstep]
      refine ⟨⟨by rw [hBS]; simp, ?_, ?_, ?_, ?_⟩, ?_⟩
      · intro m hm
        simp only at hm
        obtain ⟨⟨hw1, hw2, hw3⟩, hbd⟩ := hmetawf m hm
        exact ⟨hbd, hw1, hw3⟩
      · have hlen1 : (acc.blockMeta ++ [closedMeta acc e]).length
            = acc.blockMeta.length + 1 := by simp
        have hlen2 : (acc.fileData ++ (acc.currentBlock ++ e.1.encode ++ e.2.encode)).length
            = acc.fileData.length
              + (acc.currentBlock ++ e.1.encode ++ e.2.encode).length :=
          List.length_append _ _
        simp only [hlen1, hlen2]
        rw [hBS] at hc h1 ⊢
        have hexp : (acc.blockMeta.length + 1) * 16384
            = acc.blockMeta.length * 16384 + 16384 := by ring
        rw [hexp]
        omega
      · intro k hk
        simp only [Option.some.injEq] at hk
        rw [← hk]
        exact hek
      · intro f hf
        simp only at hf
        exact hfiles f hf
      · have hlen2 : (acc.fileData ++ (acc.currentBlock ++ e.1.encode ++ e.2.encode)).length
            = acc.fileData.length
              + (acc.currentBlock ++ e.1.encode ++ e.2.encode).length :=
          List.length_append _ _
        simp only [hlen2, List.length_nil, hcb]
        omega
  · have hstep : flushEntry acc e =
        { acc with
          currentBlock := acc.currentBlock ++ e.1.encode ++ e.2.encode
          firstKey := some (acc.firstKey.getD e.1)
          lastKey := some e.1 } := by
      unfold flushEntry
      rw [if_neg h1]
    rw [hstep]
    refine ⟨⟨by dsimp only; omega, ?_, ?_, ?_, ?_⟩, ?_⟩
    · intro m hm
      simp only at hm
      exact hb m hm
    · simp only
      exact hc
    · intro k hk
      simp only [Option.some.injEq] at hk
      rw [← hk]
      exact hek
    · intro f hf
      simp only at hf
      exact hfiles f hf
    · simp only
      omega

theorem flushFold_inv (entries : List (Key × Value)) (N : Nat) (hN : N ≤ 2 ^ 40) :
    ∀ acc, flushInv acc → (∀ e ∈ entries, wfFlushEntry e) →
      acc.fileData.length + acc.currentBlock.length + totalEncLen entries ≤ N →
      flushInv (entries.foldl flushEntry acc) ∧
      (entries.foldl flushEntry acc).fileData.length
        + (entries.foldl flushEntry acc).currentBlock.length ≤ N := by
  induction entries with
  | nil =>
    intro acc hinv _ hsize
    simp only [List.foldl_nil]
    exact ⟨hinv, by simp only [totalEncLen, List.map_nil, List.sum_nil] at hsize; omega⟩
  | cons e es ih =>
    intro acc hinv hwf hsize
    have htot : totalEncLen (e :: es) = entryEncLen e + totalEncLen es := by
      simp [totalEncLen]
    have hstep := flushEntry_inv acc e N hinv (hwf e (List.mem_cons_self _ _)) hN
      (by rw [htot] at hsize; omega)
    simp only [List.foldl_cons]
    exact ih (flushEntry acc e) hstep.1 (fun q hq => hwf q (List.mem_cons_of_mem _ hq))
      (by rw [htot] at hsize; omega)

theorem flushFinish_good (acc : FlushAcc) (N : Nat) (hN : N ≤ 2 ^ 40)
    (hinv : flushInv acc)
    (hsize : acc.fileData.length + acc.currentBlock.length ≤ N) :
    ∀ f ∈ flushFinish acc, goodSSTableFile f := by
  obtain ⟨ha, hb, hc, hd, hfiles⟩ := hinv
  have hBS : BLOCK_SIZE = 16384 := rfl
  have h32 : (2 : Nat) ^ 32 = 4294967296 := by norm_num
  have h40 : (2 : Nat) ^ 40 = 1099511627776 := by norm_num
  have h64 : (2 : Nat) ^ 64 = 18446744073709551616 := by norm_num
  unfold flushFinish
  rcases hfk : acc.firstKey with _ | fk
  · exact fun f hf => hfiles f hf
  · rcases hlk : acc.lastKey with _ | lk
    · exact fun f hf => hfiles f hf
    · intro f hf
      simp only at hf
      rcases List.mem_append.mp hf with hold | hnew
      · exact hfiles f hold
      · rw [List.mem_singleton.mp hnew]
        have hcurr32 : acc.currentBlock.length < 2 ^ 32 := by
          rw [hBS] at ha; omega
        have hmod : acc.currentBlock.length % 2 ^ 32 = acc.currentBlock.length :=
          Nat.mod_eq_of_lt hcurr32
        apply finalizeFile_good
        · intro m hm
          rcases List.mem_append.mp hm with hold' | hnew'
          · obtain ⟨h1, h2, h3⟩ := hb m hold'
            exact ⟨h2, by omega, h3⟩
          · rw [List.mem_singleton.mp hnew']
            refine ⟨hd lk hlk, by simp only; omega, ?_⟩
            simp only [hmod]
            omega
        · simp only [List.length_append, List.length_cons, List.length_nil]
          rw [hBS] at hc
          omega
        · simp only [List.length_append]
          omega
        · intro m hm
          rcases List.mem_append.mp hm with hold' | hnew'
          · have := (hb m hold').1
            simp only [List.length_append]
            omega
          · rw [List.mem_singleton.mp hnew']
            simp only [hmod, List.length_append]
            omega

/-- Claim C8 (amended): every SSTable file produced by flushing a frozen
memtable parses — the footer's last four bytes decode to the magic
`0xDEADBEEF`, the index block at `index_offset` contains exactly
`block_count` entries (one per written data block, in file order, each
carrying the block's last internal key, offset, and size), and each
recorded block's byte range lies within the data region:
`offset + size ≤ index_offset`.  The original claim's strict bound
`offset + size < index_offset` cannot hold: the data blocks are
contiguous and the index begins immediately after the last one, so the
final block always has `offset + size = index_offset` (see the
counterexample). -/
theorem sstable_flush_files_parse (entries : List (Key × Value))
    (hwf : ∀ e ∈ entries, wfFlushEntry e) (hN : totalEncLen entries ≤ 2 ^ 40) :
    ∀ f ∈ flushFiles entries, goodSSTableFile f := by
  have hinit : flushInv flushInit := by
    refine ⟨?_, ?_, ?_, ?_, ?_⟩
    · show (0 : Nat) < BLOCK_SIZE
      norm_num [BLOCK_SIZE]
    · intro m hm; simp [flushInit] at hm
    · simp [flushInit]
    · intro k hk; simp [flushInit] at hk
    · intro f hf; simp [flushInit] at hf
  have hfold := flushFold_inv entries (totalEncLen entries) hN flushInit hinit hwf
    (by simp [flushInit])
  exact flushFinish_good _ (totalEncLen entries) hN hfold.1 hfold.2

theorem sstable_flush_files_parse_witness :
    (∀ e ∈ [((⟨[97], 0⟩ : Key), Value.data [120])], wfFlushEntry e) ∧
    totalEncLen [((⟨[97], 0⟩ : Key), Value.data [120])] ≤ 2 ^ 40 ∧
    ∀ f ∈ flushFiles [((⟨[97], 0⟩ : Key), Value.data [120])], goodSSTableFile f :=
  ⟨by decide, by decide,
    sstable_flush_files_parse [((⟨[97], 0⟩ : Key), Value.data [120])] (by decide) (by decide)⟩

/-- Counterexample to claim C8 as stated: flushing the one-entry memtable
`{("a", 0) ↦ Data "x"}` produces a file that parses (footer magic valid),
but its single recorded block has `offset + size = 19 = index_offset`,
which does not lie within `[0, index_offset)` — the strict bound of the
claim fails on the final block of every flushed file. -/
theorem sstable_strict_bound_counterexample :
    parsesWithStrictBounds
      ((flushFiles [((⟨[97], 0⟩ : Key), Value.data [120])]).headD []) = false ∧
    (parseSSTable ((flushFiles [((⟨[97], 0⟩ : Key), Value.data [120])]).headD [])).isSome
      = true := by
  decide

end LSM
